import Mathlib

/-!
Shallow embedding of the Obsidian→MDX import pipeline and the dev.to
cross-poster of this blog repository, together with proofs about the
embedded code.  Strings are modelled as `List Char`; JavaScript string
operations are modelled on the ASCII range this code base uses.
-/

/-- ASCII model of the JS regex class `\s` (also used by `String.prototype.trim`). -/
def jsIsWs (c : Char) : Bool :=
  c = ' ' || c = '\t' || c = '\n' || c = '\r' || c = '\x0b' || c = '\x0c'

/-- ASCII model of `String.prototype.toLowerCase` on one character:
uppercase latin letters are shifted by 32, all else is unchanged. -/
def jsToLowerChar (c : Char) : Char :=
  if 65 ≤ c.toNat ∧ c.toNat ≤ 90 then Char.ofNat (c.toNat + 32) else c

def jsToLowerL (l : List Char) : List Char := l.map jsToLowerChar

/-- JS `String.prototype.trim` on a character list. -/
def jsTrimL (l : List Char) : List Char :=
  ((l.dropWhile jsIsWs).reverse.dropWhile jsIsWs).reverse

/-- The JS replacement `replace(/\s+/g, "-")`: every maximal whitespace run
becomes a single hyphen.  The flag records being inside a whitespace run. -/
def collapseWsAux : Bool → List Char → List Char
  | _, [] => []
  | inRun, c :: rest =>
    if jsIsWs c then
      if inRun then collapseWsAux true rest else '-' :: collapseWsAux true rest
    else
      c :: collapseWsAux false rest

def collapseWsL (l : List Char) : List Char := collapseWsAux false l

/-- Drop trailing `'/'` characters (posix path semantics). -/
def stripTrailingSlashes (l : List Char) : List Char :=
  (l.reverse.dropWhile (fun c => c = '/')).reverse

/-- The last path component: what follows the final `'/'` once trailing
slashes are removed (posix `path.basename` without an extension argument). -/
def lastComponent (l : List Char) : List Char :=
  ((stripTrailingSlashes l).reverse.takeWhile (fun c => !(c = '/' : Bool))).reverse

/-- Split a list at its final `'.'`: `some (pre, post)` means the list is
`pre ++ '.' :: post` with no dot in `post`. -/
def lastDotSplit : List Char → Option (List Char × List Char)
  | [] => none
  | c :: rest =>
    match lastDotSplit rest with
    | some (pre, post) => some (c :: pre, post)
    | none => if c = '.' then some ([], rest) else none

/-- Node's `(path.basename(p, path.extname(p)), path.extname(p))` pair, posix
rules: a leading dot of the component starts no extension, `..` has no
extension, a trailing dot yields extension `"."`. -/
def jsExtnameSplit (p : List Char) : List Char × List Char :=
  match lastDotSplit (lastComponent p) with
  | some (pre, post) =>
    if pre = [] ∨ lastComponent p = ['.', '.'] then (lastComponent p, [])
    else (pre, '.' :: post)
  | none => (lastComponent p, [])

/-- `normalizeImageName` from `scripts/utils/obsidian-image-utils.mjs`:
lower-case the basename, replace whitespace runs with single hyphens,
keep the extension exactly as written. -/
def normalizeImageNameL (l : List Char) : List Char :=
  collapseWsL (jsToLowerL (jsExtnameSplit l).1) ++ (jsExtnameSplit l).2

def normalizeImageName (s : String) : String := String.mk (normalizeImageNameL s.data)

/-- `getBasename` from the import utilities: `path.basename(p, path.extname(p))`. -/
def jsGetBasename (s : String) : String := String.mk (jsExtnameSplit s.data).1

/-- Character class kept by `slugify`'s filter `[^a-z0-9\s-]` removal. -/
def isSlugKeep (c : Char) : Bool :=
  (97 ≤ c.toNat && c.toNat ≤ 122) || (48 ≤ c.toNat && c.toNat ≤ 57) || jsIsWs c || c = '-'

/-- `slugify` from the import utilities: lower-case, remove characters
outside `[a-z0-9\s-]`, trim, collapse whitespace runs to single hyphens. -/
def slugifyL (l : List Char) : List Char :=
  collapseWsL (jsTrimL ((jsToLowerL l).filter isSlugKeep))

def slugify (s : String) : String := String.mk (slugifyL s.data)

-- ## Image relocator (scripts/utils/obsidian-image-utils.mjs)

/-- First occurrence of `"]]"`: `some (inner, after)` splits the input as
`inner ++ "]]" ++ after`. -/
def splitAtBB : List Char → Option (List Char × List Char)
  | [] => none
  | [_] => none
  | a :: b :: rest =>
    if a = ']' ∧ b = ']' then some ([], rest)
    else
      match splitAtBB (b :: rest) with
      | some (x, y) => some (a :: x, y)
      | none => none

/-- Token scan of the regex `/!\[\[\s*(.*?)\s*\]\]/g`: at each position try to
read `![[`, capture up to the first `]]`, require the trimmed capture to be
newline-free (`.` does not match a newline in JS), and continue after the
token; a failed start advances one character, as the regex engine does.
Returns (full matched token, trimmed captured name) pairs.  The fuel is the
content length, which bounds the number of steps. -/
def findTokensF : Nat → List Char → List (List Char × List Char)
  | 0, _ => []
  | _, [] => []
  | fuel + 1, c :: rest =>
    if (c :: rest).take 3 = ['!', '[', '['] then
      match splitAtBB ((c :: rest).drop 3) with
      | some (inner, after) =>
        if '\n' ∈ jsTrimL inner then findTokensF fuel rest
        else ('!' :: '[' :: '[' :: (inner ++ [']', ']']), jsTrimL inner) ::
          findTokensF fuel after
      | none => findTokensF fuel rest
    else findTokensF fuel rest

def findTokens (content : List Char) : List (List Char × List Char) :=
  findTokensF content.length content

/-- JS `String.prototype.replace` with a string pattern: replace the first
occurrence only.  The replacement text is inserted literally (JS
`$`-substitution patterns in replacement strings are not modelled). -/
def replaceFirstL : List Char → List Char → List Char → List Char
  | [], pat, repl => if pat = [] then repl else []
  | c :: rest, pat, repl =>
    if pat.isPrefixOf (c :: rest) then repl ++ (c :: rest).drop pat.length
    else c :: replaceFirstL rest pat repl

/-- The Markdown image reference `![n](./assets/n)` written for a normalized
image name. -/
def mdImageRef (n : List Char) : List Char :=
  ("![").data ++ n ++ ("](./assets/").data ++ n ++ (")").data

/-- The body-rewriting loop of `processImages`: for each match in order,
replace the first occurrence of the token by the Markdown reference built
from the normalized name. -/
def rewriteTokens (content : List Char) (ms : List (List Char × List Char)) : List Char :=
  ms.foldl (fun acc m => replaceFirstL acc m.1 (mdImageRef (normalizeImageNameL m.2))) content

/-- Result object returned by `copyImage`; the optional fields are present
only on some return paths of the source. -/
structure CopyRes where
  success : Bool
  originalName : String
  normalizedName : Option String
  error : Option String
deriving DecidableEq

/-- File-system oracle: the behaviour of `fs.pathExists`, `fs.copy` and
`fs.ensureDir` during one run; `.error` models a thrown I/O exception. -/
structure FSOracle where
  pathExists : String → Bool
  copy : String → String → Except String Unit
  ensureDir : String → Except String Unit

/-- Simplified posix `path.join` for two segments; path normalization is
irrelevant to the properties proved here because joined paths are only passed
to the oracle. -/
def jsPathJoin (a b : String) : String :=
  if a = ("") then b else String.mk (a.data ++ '/' :: b.data)

/-- `copyImage` of `scripts/utils/obsidian-image-utils.mjs`: a missing source
file is reported as a `success:false` result with `error: "missing"` (and no
normalized name), while an exception from `fs.copy` propagates. -/
def copyImage (fs : FSOracle) (sourcePath destPath originalName normalizedName : String) :
    Except String CopyRes :=
  if fs.pathExists sourcePath then
    match fs.copy sourcePath destPath with
    | .ok _ => .ok ⟨true, originalName, some normalizedName, none⟩
    | .error e => .error e
  else .ok ⟨false, originalName, none, some ("missing")⟩

/-- `Promise.all` over `Except`: the first rejection rejects the whole batch. -/
def mapExcept (f : α → Except String β) : List α → Except String (List β)
  | [] => .ok []
  | a :: l =>
    match f a with
    | .error e => .error e
    | .ok b =>
      match mapExcept f l with
      | .error e => .error e
      | .ok bs => .ok (b :: bs)

/-- `processImages` of `scripts/utils/obsidian-image-utils.mjs`: scan tokens,
ensure the assets directory, rewrite the body for every match (the rewrite is
computed before the copies are awaited and does not consult their results),
and await all copies; a rejected copy rejects the whole call as `Promise.all`
does. -/
def processImages (fs : FSOracle) (content sourceDir destDir : String) :
    Except String (String × List CopyRes) :=
  match findTokens content.data with
  | [] => .ok (content, [])
  | ms =>
    match fs.ensureDir (jsPathJoin destDir ("assets")) with
    | .error e => .error e
    | .ok _ =>
      match mapExcept (fun m =>
          copyImage fs (jsPathJoin sourceDir (String.mk m.2))
            (jsPathJoin (jsPathJoin destDir ("assets")) (String.mk (normalizeImageNameL m.2)))
            (String.mk m.2) (String.mk (normalizeImageNameL m.2))) ms with
      | .error e => .error e
      | .ok results => .ok (String.mk (rewriteTokens content.data ms), results)

/-- Oracle on which every source file is missing and nothing throws. -/
def fsAllMissing : FSOracle :=
  ⟨fun _ => false, fun _ _ => .ok (), fun _ => .ok ()⟩

/-- Oracle on which every path exists and every operation succeeds. -/
def fsAllOk : FSOracle :=
  ⟨fun _ => true, fun _ _ => .ok (), fun _ => .ok ()⟩

/-- Oracle on which every path exists but every copy throws. -/
def fsCopyFails : FSOracle :=
  ⟨fun _ => true, fun _ _ => .error ("EACCES"), fun _ => .ok ()⟩

-- ## Batch runner (processFilesInParallel of the import script)

inductive NoteStatus where
  | imported
  | skipped
  | error
deriving DecidableEq

structure NoteRes where
  status : NoteStatus
  filename : String
  message : Option String
  slug : Option String
deriving DecidableEq

/-- Outcome of one `processNote` promise as observed by `Promise.allSettled`. -/
inductive Settled (α : Type) where
  | fulfilled (v : α)
  | rejected (reason : String)

/-- `path.basename(p)` with the extension kept. -/
def jsBasenameFull (s : String) : String := String.mk (lastComponent s.data)

/-- How the batch loop turns one settled promise into a result entry: a
fulfilled note keeps its value; a rejection becomes an `error` entry for that
file (`'unknown error'` when the reason stringifies to the empty string). -/
def settleOne (proc : String → Settled NoteRes) (filePath : String) : NoteRes :=
  match proc filePath with
  | .fulfilled v => v
  | .rejected m =>
    ⟨.error, jsBasenameFull filePath, some (if m = ("") then ("unknown error") else m), none⟩

/-- The `slice(i, i + concurrency)` windows of the batch loop.  The fuel is
the list length; a window size of `0` would make the source loop forever, so
every theorem below assumes `0 < c`. -/
def chunkedF {α : Type} : Nat → Nat → List α → List (List α)
  | 0, _, _ => []
  | _, _, [] => []
  | fuel + 1, c, x :: xs => ((x :: xs).take c) :: chunkedF fuel c ((x :: xs).drop c)

def chunked {α : Type} (c : Nat) (l : List α) : List (List α) := chunkedF l.length c l

/-- `processFilesInParallel` of the import script: join each file name to the
source directory, dispatch windows of size `concurrency`, and collect each
window's settled results in order before the next window starts. -/
def processFilesInParallel (proc : String → Settled NoteRes) (sourceMarkdownDir : String)
    (files : List String) (concurrency : Nat) : List NoteRes :=
  ((chunked concurrency (files.map (fun f => jsPathJoin sourceMarkdownDir f))).map
    (fun batch => batch.map (settleOne proc))).flatten

-- ## Frontmatter values (model of gray-matter output) and the validation gate

inductive FMValue where
  | vstr (s : String)
  | vbool (b : Bool)
  | vnum (n : Int)
  | vnull
  | varr (xs : List FMValue)

abbrev Frontmatter := List (String × FMValue)

def lookupFM : Frontmatter → String → Option FMValue
  | [], _ => none
  | (k2, v) :: rest, k => if k2 = k then some v else lookupFM rest k

/-- JS truthiness of a frontmatter value. -/
def jsTruthy : FMValue → Bool
  | .vstr s => !(s == (""))
  | .vbool b => b
  | .vnum n => !(n == 0)
  | .vnull => false
  | .varr _ => true

def isStrFM : FMValue → Bool
  | .vstr _ => true
  | _ => false

/-- The strict-equality check `v === true || v === "true"` used by the skip
logic, on an optional field. -/
def isSkipTruthy : Option FMValue → Bool
  | some (.vbool true) => true
  | some (.vstr s) => s == ("true")
  | _ => false

/-- `getSkipReason` of the import utilities: `can_skip` first, then
`is_draft`. -/
def getSkipReason (fm : Frontmatter) : Option String :=
  if isSkipTruthy (lookupFM fm ("can_skip")) then some ("can_skip property is set to true")
  else if isSkipTruthy (lookupFM fm ("is_draft")) then some ("post is marked as draft")
  else none

/-- Coarse model of JS `String(v)` (used only inside an error message; no
claim depends on the text). -/
def jsDisplay : FMValue → String
  | .vstr s => s
  | .vbool true => ("true")
  | .vbool false => ("false")
  | .vnum n => toString n
  | .vnull => ("null")
  | .varr _ => ("")

/-- `validateFrontmatter` of the import utilities.  JS date parsing is modelled
by the oracle `dateOk`: `dateOk v = true` iff `new Date(v)` would yield a
valid date. -/
def validateFrontmatter (dateOk : FMValue → Bool) (fm : Frontmatter) : Option String :=
  let descIssues :=
    match lookupFM fm ("description") with
    | none => [("description (missing)")]
    | some v =>
      if !jsTruthy v then [("description (missing)")]
      else if !isStrFM v then [("description (invalid type, expected string)")]
      else []
  let dateIssues :=
    match lookupFM fm ("date") with
    | none => [("date (missing)")]
    | some v =>
      if !jsTruthy v then [("date (missing)")]
      else if !dateOk v then [("date (invalid: \"" ++ jsDisplay v ++ "\")")]
      else []
  match descIssues ++ dateIssues with
  | [] => none
  | issues => some (("frontmatter validation failed: ") ++ String.intercalate (", ") issues)

inductive Decision where
  | skip (reason : String)
  | reject (message : String)
  | accept
deriving DecidableEq

/-- The evaluation prefix of `processNote`: the skip check runs first and
returns immediately; only then is the frontmatter validated (an `error`
result); an accepted note goes on to be imported. -/
def processNoteDecision (dateOk : FMValue → Bool) (fm : Frontmatter) : Decision :=
  match getSkipReason fm with
  | some r => .skip r
  | none =>
    match validateFrontmatter dateOk fm with
    | some e => .reject e
    | none => .accept

-- ## processFrontmatter (part_005): title fallback and array normalization

/-- JS object property assignment on the association-list model: replace in
place when the key exists, append otherwise. -/
def setKey (fm : Frontmatter) (k : String) (v : FMValue) : Frontmatter :=
  if fm.any (fun kv => kv.1 == k) then
    fm.map (fun kv => if kv.1 = k then (k, v) else kv)
  else fm ++ [(k, v)]

/-- The condition `!title || typeof title !== "string" || title.trim() === ""`
that triggers the basename fallback. -/
def titleCond (fm : Frontmatter) : Bool :=
  match lookupFM fm ("title") with
  | some (.vstr s) => s == ("") || (jsTrimL s.data).isEmpty
  | some _ => true
  | none => true

/-- `normalizeArray`: arrays pass through unchanged, truthy strings become
one-element arrays, anything else becomes the empty array. -/
def normalizeArrayFM : Option FMValue → FMValue
  | some (.varr xs) => .varr xs
  | some (.vstr s) => if s == ("") then .varr [] else .varr [.vstr s]
  | _ => .varr []

/-- Strip one leading `#` from a string tag; non-strings pass through. -/
def stripHashTag : FMValue → FMValue
  | .vstr s => if s.startsWith ("#") then .vstr (s.drop 1) else .vstr s
  | v => v

/-- `processFrontmatter` of part_005: title fallback to the basename, `tags`
and `authors` normalized to arrays, then the Obsidian `#` prefix stripped
from string tags (the array guard of the source is kept). -/
def processFrontmatter (fm : Frontmatter) (filename : String)
    (getB : String → String) : Frontmatter :=
  let fm1 := if titleCond fm then setKey fm ("title") (.vstr (getB filename)) else fm
  let fm2 := setKey fm1 ("tags") (normalizeArrayFM (lookupFM fm1 ("tags")))
  let fm3 := setKey fm2 ("authors") (normalizeArrayFM (lookupFM fm2 ("authors")))
  match lookupFM fm3 ("tags") with
  | some (.varr xs) => setKey fm3 ("tags") (.varr (xs.map stripHashTag))
  | _ => fm3

-- ## Cross-poster (scripts/publish-devto.mjs)

structure RemoteArticle where
  id : Nat
  url : String
  published : Bool
deriving DecidableEq

structure MetaRecord where
  devtoId : Nat
  devtoUrl : String
  canonicalUrl : String
  lastUpdated : String
deriving DecidableEq

/-- Remote API oracle: the behaviour of `updateArticle` and `createArticle`
during one run; `.error` models a thrown request failure. -/
structure DevtoApi where
  update : Nat → Except String RemoteArticle
  create : Except String RemoteArticle

/-- JS `a?.id || b?.devtoId` on optional numeric ids (`0` is falsy). -/
def jsOrId (a b : Option Nat) : Option Nat :=
  match a with
  | some n => if n ≠ 0 then some n else b
  | none => b

/-- The create-or-update step of `processPost`: take the article id from the
canonical-URL lookup, falling back to the persisted metadata record; if an id
is known, try `updateArticle` and on failure fall back to `createArticle`;
otherwise create outright. -/
def syncArticle (api : DevtoApi) (existingArticle : Option RemoteArticle)
    (existingMeta : Option MetaRecord) : Except String RemoteArticle :=
  match jsOrId (existingArticle.map (fun a => a.id))
      (existingMeta.map (fun m => m.devtoId)) with
  | some aid =>
    if aid ≠ 0 then
      match api.update aid with
      | .ok r => .ok r
      | .error _ => api.create
    else api.create
  | none => api.create

def isLowerAlnum (c : Char) : Bool :=
  (97 ≤ c.toNat && c.toNat ≤ 122) || (48 ≤ c.toNat && c.toNat ≤ 57)

/-- One tag through the `sanitizeTags` pipeline: remove `[-_\s]`, lower-case,
keep only `[a-z0-9]`, trim. -/
def sanitizeTag (s : String) : String :=
  String.mk (jsTrimL (((s.data.filter
    (fun c => !(c = '-' || c = '_' || jsIsWs c))).map jsToLowerChar).filter isLowerAlnum))

/-- `sanitizeTags` of publish-devto.mjs: a non-array yields `[]`; non-string
entries and entries that sanitize to the empty string are dropped; at most
four tags are kept, the excess silently discarded. -/
def sanitizeTags : FMValue → List String
  | .varr xs =>
    (xs.filterMap (fun x =>
      match x with
      | .vstr s => if sanitizeTag s = ("") then none else some (sanitizeTag s)
      | _ => none)).take 4
  | _ => []

-- ## Frontmatter codec (part_004): parseFrontmatter / formatFrontmatter

inductive FrontVal where
  | str (v : String)
  | arr (xs : List String)
deriving DecidableEq

/-- Index of the last occurrence of a character. -/
def lastIdxOf (a : Char) : List Char → Option Nat
  | [] => none
  | c :: rest =>
    match lastIdxOf a rest with
    | some k => some (k + 1)
    | none => if c = a then some 0 else none

/-- Ascending indices of every occurrence of a character. -/
def idxsOf (a : Char) : List Char → List Nat
  | [] => []
  | c :: rest =>
    if c = a then 0 :: (idxsOf a rest).map (fun k => k + 1)
    else (idxsOf a rest).map (fun k => k + 1)

/-- Does the closing delimiter pattern `\n---\s*\n` match at the head of `s`?
On success, the offset just past the final consumed `\n` (the greedy `\s*`
ends at the last newline of the whitespace run). -/
def closeAtS (s : List Char) : Option Nat :=
  if s.take 4 = ['\n', '-', '-', '-'] then
    match lastIdxOf '\n' ((s.drop 4).takeWhile jsIsWs) with
    | some k => some (4 + k + 1)
    | none => none
  else none

/-- Earliest offset where the closing delimiter matches (the lazy middle group
of the frontmatter regex stops as early as possible): `some (i, b)` is the
close offset and the body offset. -/
def findCloseS : List Char → Option (Nat × Nat)
  | [] => none
  | c :: rest =>
    match closeAtS (c :: rest) with
    | some b => some (0, b)
    | none => (findCloseS rest).map (fun ib => (ib.1 + 1, ib.2 + 1))

/-- Opening candidates of `^---\s*\n`, tried greedily (longest `\s*` first):
for each candidate start, look for a close; the first candidate that has one
wins. -/
def parseRawTry (content : List Char) : List Nat → Option (List Char × List Char)
  | [] => none
  | k :: ks =>
    match findCloseS (content.drop (3 + k + 1)) with
    | some ib =>
      some ((content.drop (3 + k + 1)).take ib.1, (content.drop (3 + k + 1)).drop ib.2)
    | none => parseRawTry content ks

/-- The frontmatter regex `^---\s*\n([\s\S]*?)\n---\s*\n([\s\S]*)$` as a match
function returning (frontmatter text, body). -/
def parseRaw (content : List Char) : Option (List Char × List Char) :=
  if content.take 3 = ['-', '-', '-'] then
    parseRawTry content ((idxsOf '\n' ((content.drop 3).takeWhile jsIsWs)).reverse)
  else none

/-- JS `split(sep)` for a single-character separator. -/
def splitOnChar (a : Char) : List Char → List (List Char)
  | [] => [[]]
  | c :: rest =>
    if c = a then [] :: splitOnChar a rest
    else
      match splitOnChar a rest with
      | [] => [[c]]
      | h :: t => (c :: h) :: t

/-- Index of the first occurrence of a character. -/
def firstIdxOf (a : Char) : List Char → Option Nat
  | [] => none
  | c :: rest =>
    if c = a then some 0
    else (firstIdxOf a rest).map (fun k => k + 1)

/-- The scalar quote check of the parser: wrapped in double quotes or in
single quotes (a single quote character counts as wrapped, as in JS). -/
def quoteWrappedL (l : List Char) : Bool :=
  (l.head? == some '"' && l.getLast? == some '"') ||
    (l.head? == some '\'' && l.getLast? == some '\'')

def unquoteIfWrapped (l : List Char) : List Char :=
  if quoteWrappedL l then (l.drop 1).dropLast else l

/-- The inline-array item cleanup `replace(/^["']|["']$/g, "")`: strip one
leading and one trailing quote character, independently. -/
def stripOneQuoteEnds (l : List Char) : List Char :=
  let l1 :=
    match l with
    | c :: rest => if c = '"' ∨ c = '\'' then rest else l
    | [] => []
  match l1.getLast? with
  | some c => if c = '"' ∨ c = '\'' then l1.dropLast else l1
  | none => l1

/-- A block-list item line: `slice(1).trim()` of the trimmed line, then the
startsWith/endsWith quote strip. -/
def parseListItem (line : List Char) : List Char :=
  unquoteIfWrapped (jsTrimL ((jsTrimL line).drop 1))

def parseInlineItems (inner : List Char) : List String :=
  (splitOnChar ',' inner).map (fun it => String.mk (stripOneQuoteEnds (jsTrimL it)))

def isDashLine (l : List Char) : Bool := (jsTrimL l).head? == some '-'

/-- The line loop of `parseFrontmatter` (part_004): skip blank and `#` lines
and lines without a colon; a key line followed by `-` lines collects a block
list; otherwise unquote the value, parse `[...]` as an inline array, else keep
the scalar.  Fuel-indexed version of the `while` loop (the fuel bounds the
iterations by the number of lines). -/
def parseLinesF : Nat → List (List Char) → List (String × FrontVal)
  | 0, _ => []
  | _, [] => []
  | fuel + 1, line :: rest =>
    let t := jsTrimL line
    if t.isEmpty || t.head? == some '#' then parseLinesF fuel rest
    else
      match firstIdxOf ':' t with
      | none => parseLinesF fuel rest
      | some ci =>
        if (match rest with | l2 :: _ => isDashLine l2 | [] => false) then
          (String.mk (jsTrimL (t.take ci)),
            .arr ((rest.takeWhile isDashLine).map (fun l2 => String.mk (parseListItem l2)))) ::
            parseLinesF fuel (rest.dropWhile isDashLine)
        else
          let v := unquoteIfWrapped (jsTrimL (t.drop (ci + 1)))
          if v.head? == some '[' && v.getLast? == some ']' then
            (String.mk (jsTrimL (t.take ci)),
              .arr (if (jsTrimL ((v.drop 1).dropLast)).isEmpty then []
                else parseInlineItems (jsTrimL ((v.drop 1).dropLast)))) ::
              parseLinesF fuel rest
          else
            (String.mk (jsTrimL (t.take ci)), .str (String.mk v)) :: parseLinesF fuel rest

def parseLines (ls : List (List Char)) : List (String × FrontVal) :=
  parseLinesF ls.length ls

/-- `parseFrontmatter` (part_004): regex split, then the line loop; when the
regex does not match, the whole content is the body and the fields are empty.
Duplicate keys are kept in encounter order in this association-list model (a
JS object keeps the last value; the round-trip theorems assume distinct
keys). -/
def parseFrontmatter (content : String) : List (String × FrontVal) × String :=
  match parseRaw content.data with
  | none => ([], content)
  | some (fmText, body) => (parseLines (splitOnChar '\n' fmText), String.mk body)

/-- JS `Array.prototype.join(sep)` on character-list pieces. -/
def joinSep (sep : List Char) : List (List Char) → List Char
  | [] => []
  | [x] => x
  | x :: y :: rest => x ++ sep ++ joinSep sep (y :: rest)

def quoteSingle (s : String) : List Char := '\'' :: (s.data ++ ['\''])

/-- Value formatting of `formatFrontmatter`: arrays inline with single-quoted
items, scalars single-quoted only when they contain a colon. -/
def formatValue : FrontVal → List Char
  | .str v => if ':' ∈ v.data then quoteSingle v else v.data
  | .arr xs => '[' :: (joinSep [',', ' '] (xs.map quoteSingle) ++ [']'])

def fieldLine (kv : String × FrontVal) : List Char :=
  kv.1.data ++ ':' :: ' ' :: formatValue kv.2

/-- `formatFrontmatter` (part_004): `---`, one `key: value` line per field,
`---`, joined with newlines. -/
def formatFrontmatter (f : List (String × FrontVal)) : List Char :=
  joinSep ['\n'] ((['-', '-', '-'] :: f.map fieldLine) ++ [['-', '-', '-']])

/-- Modelled from the spec: the codec has no single serializer taking fields
and body (`formatFrontmatter` emits only the block); §4.1's
`serialize(fields, body) -> rawText` is the frontmatter block followed by a
newline and the body. -/
def serializeNote (f : List (String × FrontVal)) (body : String) : String :=
  String.mk (formatFrontmatter f ++ '\n' :: body.data)

/-- Well-formed key for the round-trip theorem: non-empty, free of whitespace,
colons and newlines, not starting with `#` or `-`. -/
def wfKey (k : String) : Prop :=
  k.data ≠ [] ∧ (∀ c ∈ k.data, jsIsWs c = false ∧ c ≠ ':') ∧
    k.data.head? ≠ some '#' ∧ k.data.head? ≠ some '-'

/-- Well-formed scalar: newline-free, already trimmed, not quote-wrapped, not
bracket-wrapped. -/
def wfScalar (v : String) : Prop :=
  (∀ c ∈ v.data, c ≠ '\n') ∧ jsTrimL v.data = v.data ∧
    quoteWrappedL v.data = false ∧
    ¬(v.data.head? = some '[' ∧ v.data.getLast? = some ']')

/-- Well-formed value: a well-formed scalar, or an array whose items are free
of newlines and commas. -/
def wfVal : FrontVal → Prop
  | .str v => wfScalar v
  | .arr xs => ∀ x ∈ xs, (∀ c ∈ x.data, c ≠ '\n') ∧ ',' ∉ x.data

/-- Well-formed field mapping: non-empty, well-formed keys and values, keys
distinct. -/
def wfFields (f : List (String × FrontVal)) : Prop :=
  f ≠ [] ∧ (∀ kv ∈ f, wfKey kv.1 ∧ wfVal kv.2) ∧ (f.map Prod.fst).Nodup

/-- Well-formed body: its leading whitespace run contains no newline (the
greedy `\s*` of the closing delimiter would otherwise swallow part of it). -/
def wfBody (b : String) : Prop := '\n' ∉ b.data.takeWhile jsIsWs

/-- Remote API oracle on which every update fails and create succeeds. -/
def apiUpdateFails : DevtoApi :=
  ⟨fun _ => .error ("500 update failed"), .ok ⟨7, ("https://dev.to/a/x"), false⟩⟩

-- ### basic lemmas about the primitives

theorem toNat_ofNat_of_valid {n : Nat} (h : n.isValidChar) : (Char.ofNat n).toNat = n := by
  rw [Char.ofNat, dif_pos h]
  rfl

theorem jsToLowerChar_eq_or (c : Char) :
    jsToLowerChar c = c ∨ (97 ≤ (jsToLowerChar c).toNat ∧ (jsToLowerChar c).toNat ≤ 122) := by
  unfold jsToLowerChar
  by_cases h : 65 ≤ c.toNat ∧ c.toNat ≤ 90
  · right
    rw [if_pos h]
    have hv : Nat.isValidChar (c.toNat + 32) := Or.inl (by omega)
    rw [toNat_ofNat_of_valid hv]
    omega
  · left
    rw [if_neg h]

theorem jsToLowerChar_of_not_upper {c : Char} (h : ¬(65 ≤ c.toNat ∧ c.toNat ≤ 90)) :
    jsToLowerChar c = c := by
  unfold jsToLowerChar
  rw [if_neg h]

theorem jsToLowerChar_idem (c : Char) :
    jsToLowerChar (jsToLowerChar c) = jsToLowerChar c := by
  rcases jsToLowerChar_eq_or c with h | h
  · rw [h, h]
  · exact jsToLowerChar_of_not_upper (by omega)

theorem toNat_lt_of_jsIsWs {c : Char} (h : jsIsWs c = true) : c.toNat < 65 := by
  simp only [jsIsWs, Bool.or_eq_true, decide_eq_true_eq] at h
  rcases h with ((((h | h) | h) | h) | h) | h <;> subst h <;> decide

theorem jsIsWs_jsToLowerChar (c : Char) : jsIsWs (jsToLowerChar c) = jsIsWs c := by
  rcases jsToLowerChar_eq_or c with h | h
  · rw [h]
  · by_cases hw : jsIsWs (jsToLowerChar c) = true
    · have := toNat_lt_of_jsIsWs hw
      omega
    · by_cases hw2 : jsIsWs c = true
      · have hlt := toNat_lt_of_jsIsWs hw2
        have : jsToLowerChar c = c := jsToLowerChar_of_not_upper (by omega)
        rw [this] at hw
        simp [hw2] at hw
      · simp [Bool.eq_false_iff.mpr hw, Bool.eq_false_iff.mpr hw2]

theorem jsToLowerChar_eq_low {c d : Char} (h : jsToLowerChar c = d)
    (hd : ¬(97 ≤ d.toNat ∧ d.toNat ≤ 122)) : c = d := by
  rcases jsToLowerChar_eq_or c with h2 | h2
  · rw [h2] at h
    exact h
  · rw [h] at h2
    exact absurd h2 hd

theorem mapSelf {α : Type} {f : α → α} :
    ∀ {l : List α}, (∀ a ∈ l, f a = a) → l.map f = l
  | [], _ => rfl
  | a :: l, h => by
    simp only [List.map_cons, List.cons.injEq]
    exact ⟨h a (List.mem_cons_self a l), mapSelf fun b hb => h b (List.mem_cons_of_mem a hb)⟩

theorem memDropWhile {p : α → Bool} : ∀ {l : List α} {a : α}, a ∈ l.dropWhile p → a ∈ l
  | [], _, h => h
  | b :: l, a, h => by
    by_cases hb : p b = true
    · rw [List.dropWhile_cons_of_pos hb] at h
      exact List.mem_cons_of_mem b (memDropWhile h)
    · rw [List.dropWhile_cons_of_neg hb] at h
      exact h

theorem memTakeWhile {p : α → Bool} :
    ∀ {l : List α} {a : α}, a ∈ l.takeWhile p → a ∈ l ∧ p a = true
  | [], _, h => by simp [List.takeWhile] at h
  | b :: l, a, h => by
    by_cases hb : p b = true
    · rw [List.takeWhile_cons_of_pos hb] at h
      rcases List.mem_cons.mp h with h | h
      · subst h
        exact ⟨List.mem_cons_self a l, hb⟩
      · have := memTakeWhile h
        exact ⟨List.mem_cons_of_mem b this.1, this.2⟩
    · rw [List.takeWhile_cons_of_neg hb] at h
      simp at h

theorem dropWhileAll {p : α → Bool} :
    ∀ {l : List α}, (∀ a ∈ l, p a = false) → l.dropWhile p = l
  | [], _ => rfl
  | b :: l, h => by
    rw [List.dropWhile_cons_of_neg]
    rw [h b (List.mem_cons_self b l)]
    simp

theorem takeWhileAll {p : α → Bool} :
    ∀ {l : List α}, (∀ a ∈ l, p a = true) → l.takeWhile p = l
  | [], _ => rfl
  | b :: l, h => by
    rw [List.takeWhile_cons_of_pos (h b (List.mem_cons_self b l))]
    rw [takeWhileAll fun a ha => h a (List.mem_cons_of_mem b ha)]

theorem memTrim {l : List Char} {a : Char} (h : a ∈ jsTrimL l) : a ∈ l := by
  unfold jsTrimL at h
  rw [List.mem_reverse] at h
  have := memDropWhile h
  rw [List.mem_reverse] at this
  exact memDropWhile this

theorem trimAll {l : List Char} (h : ∀ a ∈ l, jsIsWs a = false) : jsTrimL l = l := by
  unfold jsTrimL
  rw [dropWhileAll h, dropWhileAll, List.reverse_reverse]
  intro a ha
  exact h a (List.mem_reverse.mp ha)

theorem memCollapse :
    ∀ {b : Bool} {l : List Char} {d : Char}, d ∈ collapseWsAux b l →
      d = '-' ∨ (d ∈ l ∧ jsIsWs d = false)
  | _, [], _, h => by simp [collapseWsAux] at h
  | b, c :: rest, d, h => by
    unfold collapseWsAux at h
    by_cases hc : jsIsWs c = true
    · rw [if_pos hc] at h
      have h2 : d ∈ collapseWsAux true rest ∨ d = '-' := by
        cases b with
        | true =>
          rw [if_pos rfl] at h
          exact Or.inl h
        | false =>
          rw [if_neg (by simp)] at h
          rcases List.mem_cons.mp h with h2 | h2
          · exact Or.inr h2
          · exact Or.inl h2
      rcases h2 with h2 | h2
      · rcases memCollapse h2 with h3 | h3
        · exact Or.inl h3
        · exact Or.inr ⟨List.mem_cons_of_mem c h3.1, h3.2⟩
      · exact Or.inl h2
    · rw [if_neg hc] at h
      rcases List.mem_cons.mp h with h2 | h2
      · exact Or.inr ⟨h2 ▸ List.mem_cons_self c rest, h2 ▸ Bool.eq_false_iff.mpr hc⟩
      · rcases memCollapse h2 with h3 | h3
        · exact Or.inl h3
        · exact Or.inr ⟨List.mem_cons_of_mem c h3.1, h3.2⟩

theorem collapseAll :
    ∀ {b : Bool} {l : List Char}, (∀ a ∈ l, jsIsWs a = false) → collapseWsAux b l = l
  | _, [], _ => rfl
  | b, c :: rest, h => by
    unfold collapseWsAux
    rw [if_neg]
    · rw [collapseAll fun a ha => h a (List.mem_cons_of_mem c ha)]
    · rw [h c (List.mem_cons_self c rest)]
      simp

theorem memCollapse_ws {b : Bool} {l : List Char} {d : Char} (h : d ∈ collapseWsAux b l) :
    jsIsWs d = false := by
  rcases memCollapse h with h2 | h2
  · subst h2
    decide
  · exact h2.2

theorem collapse_ne_nil : ∀ {l : List Char}, l ≠ [] → collapseWsAux false l ≠ []
  | [], h => absurd rfl h
  | c :: rest, _ => by
    unfold collapseWsAux
    by_cases hc : jsIsWs c = true
    · rw [if_pos hc, if_neg (by simp)]
      simp
    · rw [if_neg hc]
      simp

theorem collapse_singleton {l : List Char} {d : Char} (hd : d ≠ '-')
    (h : collapseWsAux false l = [d]) : l = [d] := by
  cases l with
  | nil => simp [collapseWsAux] at h
  | cons c rest =>
    unfold collapseWsAux at h
    by_cases hc : jsIsWs c = true
    · rw [if_pos hc, if_neg (by simp)] at h
      rw [List.cons.injEq] at h
      exact absurd h.1.symm hd
    · rw [if_neg hc] at h
      rw [List.cons.injEq] at h
      have hrest : rest = [] := by
        cases rest with
        | nil => rfl
        | cons c2 r2 =>
          exfalso
          have := collapse_ne_nil (l := c2 :: r2) (by simp)
          exact this h.2
      subst hrest
      rw [h.1]

theorem lastDotSplit_none : ∀ {l : List Char}, '.' ∉ l → lastDotSplit l = none
  | [], _ => rfl
  | c :: rest, h => by
    unfold lastDotSplit
    rw [lastDotSplit_none fun hm => h (List.mem_cons_of_mem c hm)]
    rw [if_neg]
    intro hc
    subst hc
    exact h (List.mem_cons_self _ _)

theorem not_mem_of_lastDotSplit_none :
    ∀ {l : List Char}, lastDotSplit l = none → '.' ∉ l
  | [], _ => by simp
  | c :: rest, h => by
    unfold lastDotSplit at h
    cases hr : lastDotSplit rest with
    | some pp => rw [hr] at h; simp at h
    | none =>
      rw [hr] at h
      by_cases hc : c = '.'
      · rw [if_pos hc] at h
        simp at h
      · intro hm
        rcases List.mem_cons.mp hm with hm | hm
        · exact hc hm.symm
        · exact not_mem_of_lastDotSplit_none hr hm

theorem lastDotSplit_eq :
    ∀ {l : List Char} {pre post : List Char}, lastDotSplit l = some (pre, post) →
      l = pre ++ '.' :: post ∧ '.' ∉ post
  | [], pre, post, h => by simp [lastDotSplit] at h
  | c :: rest, pre, post, h => by
    unfold lastDotSplit at h
    cases hr : lastDotSplit rest with
    | some pp =>
      rw [hr] at h
      cases pp with
      | mk p1 p2 =>
        simp only [Option.some.injEq, Prod.mk.injEq] at h
        have := lastDotSplit_eq hr
        constructor
        · rw [← h.1, ← h.2, List.cons_append, ← this.1]
        · rw [← h.2]
          exact this.2
    | none =>
      rw [hr] at h
      by_cases hc : c = '.'
      · rw [if_pos hc] at h
        simp only [Option.some.injEq, Prod.mk.injEq] at h
        subst hc
        refine ⟨?_, ?_⟩
        · rw [← h.1, ← h.2]
          simp
        · rw [← h.2]
          exact not_mem_of_lastDotSplit_none hr
      · rw [if_neg hc] at h
        simp at h

theorem lastDotSplit_append {post : List Char} (hpost : '.' ∉ post) :
    ∀ (pre : List Char), lastDotSplit (pre ++ '.' :: post) = some (pre, post)
  | [] => by
    unfold lastDotSplit
    rw [List.nil_append]
    show (match lastDotSplit post with
      | some (pre, post) => some ('.' :: pre, post)
      | none => if ('.' : Char) = '.' then some ([], post) else none) = some ([], post)
    rw [lastDotSplit_none hpost]
    simp
  | c :: pre => by
    rw [List.cons_append]
    unfold lastDotSplit
    rw [lastDotSplit_append hpost pre]

theorem lastComponent_no_slash {p : List Char} {a : Char} (h : a ∈ lastComponent p) :
    a ≠ '/' := by
  unfold lastComponent at h
  rw [List.mem_reverse] at h
  have h2 := (memTakeWhile h).2
  simp only [Bool.not_eq_true', decide_eq_false_iff_not] at h2
  exact h2

theorem stripTrailingSlashes_fix {l : List Char} (h : ∀ a ∈ l, a ≠ '/') :
    stripTrailingSlashes l = l := by
  unfold stripTrailingSlashes
  rw [dropWhileAll, List.reverse_reverse]
  intro a ha
  rw [List.mem_reverse] at ha
  simp only [decide_eq_false_iff_not]
  exact h a ha

theorem lastComponent_fix {l : List Char} (h : ∀ a ∈ l, a ≠ '/') :
    lastComponent l = l := by
  unfold lastComponent
  rw [stripTrailingSlashes_fix h, takeWhileAll, List.reverse_reverse]
  intro a ha
  rw [List.mem_reverse] at ha
  simp only [Bool.not_eq_true', decide_eq_false_iff_not]
  exact h a ha

theorem collapseLower_chars {m : List Char} {d : Char}
    (hd : d ∈ collapseWsL (jsToLowerL m)) :
    (jsToLowerChar d = d ∧ jsIsWs d = false) ∧ (d = '-' ∨ ∃ c ∈ m, jsToLowerChar c = d) := by
  rcases memCollapse hd with h | h
  · subst h
    exact ⟨⟨by decide, by decide⟩, Or.inl rfl⟩
  · rcases List.mem_map.mp h.1 with ⟨c, hc, hcd⟩
    refine ⟨⟨?_, h.2⟩, Or.inr ⟨c, hc, hcd⟩⟩
    rw [← hcd]
    exact jsToLowerChar_idem c

theorem collapseLower_fix {n : List Char}
    (h : ∀ d ∈ n, jsToLowerChar d = d ∧ jsIsWs d = false) :
    collapseWsL (jsToLowerL n) = n := by
  unfold collapseWsL jsToLowerL
  rw [mapSelf fun d hd => (h d hd).1]
  exact collapseAll fun d hd => (h d hd).2

theorem collapseLower_excl {m : List Char} {e : Char}
    (he : ¬(97 ≤ e.toNat ∧ e.toNat ≤ 122)) (hne : e ≠ '-') (hm : e ∉ m) :
    e ∉ collapseWsL (jsToLowerL m) := by
  intro hmem
  rcases (collapseLower_chars hmem).2 with h | ⟨c, hc, hcd⟩
  · exact hne h
  · rw [jsToLowerChar_eq_low hcd he] at hc
    exact hm hc

theorem collapse_cons_nonws {c : Char} {l : List Char} (hc : jsIsWs c = false) :
    collapseWsAux false (c :: l) = c :: collapseWsAux false l := by
  simp only [collapseWsAux]
  rw [if_neg (by simp [hc])]

theorem collapse_eq_nil {l : List Char} (h : collapseWsAux false l = []) : l = [] := by
  by_cases hl : l = []
  · exact hl
  · exact absurd h (collapse_ne_nil hl)

theorem slugifyL_chars {l : List Char} {d : Char} (hd : d ∈ slugifyL l) :
    isSlugKeep d = true ∧ jsIsWs d = false ∧ jsToLowerChar d = d := by
  unfold slugifyL at hd
  rcases memCollapse hd with h | h
  · subst h
    exact ⟨by decide, by decide, by decide⟩
  · have hmem := memTrim h.1
    have hf := List.mem_filter.mp hmem
    rcases List.mem_map.mp hf.1 with ⟨c, _, hcd⟩
    refine ⟨hf.2, h.2, ?_⟩
    rw [← hcd]
    exact jsToLowerChar_idem c

theorem slugifyL_idem (l : List Char) : slugifyL (slugifyL l) = slugifyL l := by
  have hchars := fun d hd => slugifyL_chars (l := l) (d := d) hd
  show collapseWsL (jsTrimL ((jsToLowerL (slugifyL l)).filter isSlugKeep)) = slugifyL l
  rw [jsToLowerL, mapSelf fun d hd => (hchars d hd).2.2]
  rw [List.filter_eq_self.mpr fun d hd => (hchars d hd).1]
  rw [trimAll fun d hd => (hchars d hd).2.1]
  exact collapseAll fun d hd => (hchars d hd).2.1

theorem normalize_fix {n : List Char}
    (hslash : ∀ a ∈ n, a ≠ '/') (hdot : '.' ∉ n)
    (hstable : ∀ d ∈ n, jsToLowerChar d = d ∧ jsIsWs d = false) :
    normalizeImageNameL n = n := by
  have hsp : jsExtnameSplit n = (n, []) := by
    simp only [jsExtnameSplit, lastComponent_fix hslash, lastDotSplit_none hdot]
  simp only [normalizeImageNameL, hsp, List.append_nil]
  exact collapseLower_fix hstable

theorem normalize_fix_dotfile {T : List Char}
    (hslash : ∀ a ∈ T, a ≠ '/') (hdotT : '.' ∉ T)
    (hstable : ∀ d ∈ T, jsToLowerChar d = d ∧ jsIsWs d = false) :
    normalizeImageNameL ('.' :: T) = '.' :: T := by
  have hslash2 : ∀ a ∈ '.' :: T, a ≠ '/' := by
    intro a ha
    rcases List.mem_cons.mp ha with h | h
    · subst h
      decide
    · exact hslash a h
  have hls : lastDotSplit ('.' :: T) = some ([], T) := by
    unfold lastDotSplit
    rw [lastDotSplit_none hdotT]
    simp
  have hsp : jsExtnameSplit ('.' :: T) = ('.' :: T, []) := by
    simp only [jsExtnameSplit, lastComponent_fix hslash2, hls]
    simp
  simp only [normalizeImageNameL, hsp, List.append_nil]
  apply collapseLower_fix
  intro d hd
  rcases List.mem_cons.mp hd with h | h
  · subst h
    exact ⟨by decide, by decide⟩
  · exact hstable d h

theorem normalize_fix_ext {B post : List Char}
    (hBne : B ≠ []) (hslashB : ∀ a ∈ B, a ≠ '/') (hslashP : ∀ a ∈ post, a ≠ '/')
    (hpost : '.' ∉ post) (hstable : ∀ d ∈ B, jsToLowerChar d = d ∧ jsIsWs d = false)
    (hne2 : B ++ '.' :: post ≠ ['.', '.']) :
    normalizeImageNameL (B ++ '.' :: post) = B ++ '.' :: post := by
  have hslash : ∀ a ∈ B ++ '.' :: post, a ≠ '/' := by
    intro a ha
    rcases List.mem_append.mp ha with h | h
    · exact hslashB a h
    · rcases List.mem_cons.mp h with h | h
      · subst h
        decide
      · exact hslashP a h
  have hsp : jsExtnameSplit (B ++ '.' :: post) = (B, '.' :: post) := by
    simp only [jsExtnameSplit, lastComponent_fix hslash, lastDotSplit_append hpost B]
    rw [if_neg]
    intro habs
    rcases habs with h | h
    · exact hBne h
    · exact hne2 h
  simp only [normalizeImageNameL, hsp]
  rw [collapseLower_fix hstable]

theorem normalizeImageNameL_idem (p : List Char) :
    normalizeImageNameL (normalizeImageNameL p) = normalizeImageNameL p := by
  have hbs : ∀ a ∈ lastComponent p, a ≠ '/' := fun a ha => lastComponent_no_slash ha
  have hbsm : '/' ∉ lastComponent p := fun h => hbs '/' h rfl
  cases hsplit : lastDotSplit (lastComponent p) with
  | none =>
    have hdot := not_mem_of_lastDotSplit_none hsplit
    have hsp : jsExtnameSplit p = (lastComponent p, []) := by
      simp only [jsExtnameSplit, hsplit]
    have hn : normalizeImageNameL p = collapseWsL (jsToLowerL (lastComponent p)) := by
      simp only [normalizeImageNameL, hsp, List.append_nil]
    rw [hn]
    apply normalize_fix
    · intro a ha hae
      subst hae
      exact collapseLower_excl (by decide) (by decide) hbsm ha
    · exact collapseLower_excl (by decide) (by decide) hdot
    · exact fun d hd => (collapseLower_chars hd).1
  | some pp =>
    obtain ⟨pre, post⟩ := pp
    obtain ⟨heq, hpost⟩ := lastDotSplit_eq hsplit
    by_cases hcond : pre = [] ∨ lastComponent p = ['.', '.']
    · have hsp : jsExtnameSplit p = (lastComponent p, []) := by
        simp only [jsExtnameSplit, hsplit]
        rw [if_pos hcond]
      have hn : normalizeImageNameL p = collapseWsL (jsToLowerL (lastComponent p)) := by
        simp only [normalizeImageNameL, hsp, List.append_nil]
      rcases hcond with hpre | hdd
      · subst hpre
        rw [List.nil_append] at heq
        have hslashP : '/' ∉ post := by
          intro h
          exact hbs '/' (heq ▸ List.mem_cons_of_mem '.' h) rfl
        have hstep : collapseWsL (jsToLowerL ('.' :: post)) =
            '.' :: collapseWsL (jsToLowerL post) := by
          show collapseWsAux false (jsToLowerChar '.' :: jsToLowerL post) = _
          rw [(by decide : jsToLowerChar '.' = '.')]
          exact collapse_cons_nonws (by decide)
        rw [hn, heq, hstep]
        apply normalize_fix_dotfile
        · intro a ha hae
          subst hae
          exact collapseLower_excl (by decide) (by decide) hslashP ha
        · exact collapseLower_excl (by decide) (by decide) hpost
        · exact fun d hd => (collapseLower_chars hd).1
      · rw [hn, hdd]
        rw [(by decide : collapseWsL (jsToLowerL ['.', '.']) = ['.', '.'])]
        decide
    · have hprene : pre ≠ [] := fun h => hcond (Or.inl h)
      have hbne : lastComponent p ≠ ['.', '.'] := fun h => hcond (Or.inr h)
      have hsp : jsExtnameSplit p = (pre, '.' :: post) := by
        simp only [jsExtnameSplit, hsplit]
        rw [if_neg hcond]
      have hn : normalizeImageNameL p = collapseWsL (jsToLowerL pre) ++ '.' :: post := by
        simp only [normalizeImageNameL, hsp]
      have hpreSub : ∀ a ∈ pre, a ∈ lastComponent p := by
        intro a ha
        rw [heq]
        exact List.mem_append.mpr (Or.inl ha)
      have hpostSub : ∀ a ∈ post, a ∈ lastComponent p := by
        intro a ha
        rw [heq]
        exact List.mem_append.mpr (Or.inr (List.mem_cons_of_mem '.' ha))
      have hslashPre : '/' ∉ pre := fun h => hbs '/' (hpreSub '/' h) rfl
      have hslashPost : ∀ a ∈ post, a ≠ '/' := fun a ha => hbs a (hpostSub a ha)
      rw [hn]
      apply normalize_fix_ext
      · intro hB
        have h2 := collapse_eq_nil hB
        exact hprene (List.map_eq_nil.mp h2)
      · intro a ha hae
        subst hae
        exact collapseLower_excl (by decide) (by decide) hslashPre ha
      · exact hslashPost
      · exact hpost
      · exact fun d hd => (collapseLower_chars hd).1
      · intro habs
        cases hB : collapseWsL (jsToLowerL pre) with
        | nil =>
          exact hprene (List.map_eq_nil.mp (collapse_eq_nil hB))
        | cons x B2 =>
          rw [hB, List.cons_append, List.cons.injEq] at habs
          obtain ⟨hx, hrest⟩ := habs
          subst hx
          cases B2 with
          | nil =>
            rw [List.nil_append, List.cons.injEq] at hrest
            have hpostnil : post = [] := hrest.2
            have hB1 : collapseWsL (jsToLowerL pre) = ['.'] := hB
            have hlow : jsToLowerL pre = ['.'] :=
              collapse_singleton (by decide) hB1
            have hpredot : pre = ['.'] := by
              cases pre with
              | nil => simp [jsToLowerL] at hlow
              | cons c pre2 =>
                simp only [jsToLowerL, List.map_cons, List.cons.injEq] at hlow
                have hc : c = '.' := jsToLowerChar_eq_low hlow.1 (by decide)
                have : pre2 = [] := List.map_eq_nil.mp hlow.2
                rw [hc, this]
            apply hbne
            rw [heq, hpredot, hpostnil]
            rfl
          | cons y B3 =>
            rw [List.cons_append, List.cons.injEq] at hrest
            have := hrest.2
            simp at this

/-- Claim C9: image-name normalization and slugification are deterministic pure
functions and idempotent: normalizing an already-normalized image name or
slugifying an already-produced slug changes nothing, so re-running the import
on the same inputs yields identical output paths and filenames. -/
theorem normalize_and_slugify_idempotent (s : String) :
    normalizeImageName (normalizeImageName s) = normalizeImageName s ∧
      slugify (slugify s) = slugify s :=
  ⟨congrArg String.mk (normalizeImageNameL_idem s.data),
    congrArg String.mk (slugifyL_idem s.data)⟩

-- ### lookup/setKey lemmas for the frontmatter model

theorem lookupFM_cons (k1 : String) (v1 : FMValue) (rest : Frontmatter) (k : String) :
    lookupFM ((k1, v1) :: rest) k = if k1 = k then some v1 else lookupFM rest k := rfl

theorem lookupFM_map_set {k : String} (v : FMValue) :
    ∀ {fm : Frontmatter}, fm.any (fun kv => kv.1 == k) = true →
      lookupFM (fm.map (fun kv => if kv.1 = k then (k, v) else kv)) k = some v
  | [], hany => by simp at hany
  | kv :: rest, hany => by
    obtain ⟨k1, v1⟩ := kv
    by_cases h : k1 = k
    · simp only [List.map_cons, if_pos h]
      rw [lookupFM_cons, if_pos rfl]
    · simp only [List.map_cons, if_neg h]
      rw [lookupFM_cons, if_neg h]
      apply lookupFM_map_set v
      simp only [List.any_cons, Bool.or_eq_true] at hany
      rcases hany with h2 | h2
      · exact absurd (by simpa using h2) h
      · exact h2

theorem lookupFM_map_other {k k2 : String} (v : FMValue) (hne : k2 ≠ k) :
    ∀ (fm : Frontmatter),
      lookupFM (fm.map (fun kv => if kv.1 = k then (k, v) else kv)) k2 = lookupFM fm k2
  | [] => rfl
  | kv :: rest => by
    obtain ⟨k1, v1⟩ := kv
    by_cases h : k1 = k
    · simp only [List.map_cons, if_pos h]
      rw [lookupFM_cons, lookupFM_cons]
      rw [if_neg fun hk => hne hk.symm, if_neg fun hk => hne (h ▸ hk).symm]
      exact lookupFM_map_other v hne rest
    · simp only [List.map_cons, if_neg h]
      rw [lookupFM_cons, lookupFM_cons]
      by_cases h2 : k1 = k2
      · rw [if_pos h2, if_pos h2]
      · rw [if_neg h2, if_neg h2]
        exact lookupFM_map_other v hne rest

theorem lookupFM_none_of_any_false {k : String} :
    ∀ {fm : Frontmatter}, fm.any (fun kv => kv.1 == k) = false → lookupFM fm k = none
  | [], _ => rfl
  | kv :: rest, h => by
    obtain ⟨k1, v1⟩ := kv
    simp only [List.any_cons, Bool.or_eq_false_iff] at h
    rw [lookupFM_cons, if_neg (by simpa using h.1)]
    exact lookupFM_none_of_any_false h.2

theorem lookupFM_append_of_none {k : String} :
    ∀ {fm : Frontmatter} (l2 : Frontmatter), lookupFM fm k = none →
      lookupFM (fm ++ l2) k = lookupFM l2 k
  | [], _, _ => rfl
  | kv :: rest, l2, h => by
    obtain ⟨k1, v1⟩ := kv
    rw [lookupFM_cons] at h
    by_cases h1 : k1 = k
    · rw [if_pos h1] at h
      simp at h
    · rw [if_neg h1] at h
      rw [List.cons_append, lookupFM_cons, if_neg h1]
      exact lookupFM_append_of_none l2 h

theorem lookup_setKey_same (fm : Frontmatter) (k : String) (v : FMValue) :
    lookupFM (setKey fm k v) k = some v := by
  unfold setKey
  by_cases hany : fm.any (fun kv => kv.1 == k) = true
  · rw [if_pos hany]
    exact lookupFM_map_set v hany
  · rw [if_neg hany]
    rw [lookupFM_append_of_none _ (lookupFM_none_of_any_false (Bool.not_eq_true _ ▸ hany))]
    rw [lookupFM_cons, if_pos rfl]

theorem lookupFM_append_single_other {k k2 : String} (v : FMValue) (hne : k2 ≠ k) :
    ∀ (fm : Frontmatter), lookupFM (fm ++ [(k, v)]) k2 = lookupFM fm k2
  | [] => by
    rw [List.nil_append, lookupFM_cons, if_neg fun h => hne h.symm]
  | (k1, v1) :: rest => by
    rw [List.cons_append, lookupFM_cons, lookupFM_cons]
    by_cases h1 : k1 = k2
    · rw [if_pos h1, if_pos h1]
    · rw [if_neg h1, if_neg h1]
      exact lookupFM_append_single_other v hne rest

theorem lookup_setKey_other (fm : Frontmatter) (k k2 : String) (v : FMValue) (hne : k2 ≠ k) :
    lookupFM (setKey fm k v) k2 = lookupFM fm k2 := by
  unfold setKey
  by_cases hany : fm.any (fun kv => kv.1 == k) = true
  · rw [if_pos hany]
    exact lookupFM_map_other v hne fm
  · rw [if_neg hany]
    exact lookupFM_append_single_other v hne fm

theorem normalizeArrayFM_arr (o : Option FMValue) : ∃ xs, normalizeArrayFM o = .varr xs := by
  cases o with
  | none => exact ⟨[], rfl⟩
  | some v =>
    cases v with
    | varr xs => exact ⟨xs, rfl⟩
    | vstr s =>
      by_cases h : (s == ("")) = true
      · exact ⟨[], by simp [normalizeArrayFM, h]⟩
      · exact ⟨[FMValue.vstr s], by simp [normalizeArrayFM, h]⟩
    | vbool b => exact ⟨[], rfl⟩
    | vnum n => exact ⟨[], rfl⟩
    | vnull => exact ⟨[], rfl⟩

theorem processFrontmatter_unfold (fm : Frontmatter) (filename : String)
    (getB : String → String) (fm1 : Frontmatter)
    (h1 : (if titleCond fm then setKey fm ("title") (.vstr (getB filename)) else fm) = fm1)
    (xs : List FMValue) (hxs : normalizeArrayFM (lookupFM fm1 ("tags")) = .varr xs)
    (ys : List FMValue)
    (hys : normalizeArrayFM (lookupFM (setKey fm1 ("tags") (.varr xs)) ("authors")) = .varr ys) :
    processFrontmatter fm filename getB =
      setKey (setKey (setKey fm1 ("tags") (.varr xs)) ("authors") (.varr ys)) ("tags")
        (.varr (xs.map stripHashTag)) := by
  simp only [processFrontmatter]
  rw [h1, hxs, hys]
  have hs : lookupFM (setKey (setKey fm1 ("tags") (.varr xs)) ("authors") (.varr ys))
      ("tags") = some (.varr xs) := by
    rw [lookup_setKey_other _ _ _ _ (by decide)]
    exact lookup_setKey_same _ _ _
  rw [hs]

/-- Claim C1: whenever `can_skip` or `is_draft` is truthy (boolean `true` or
the string `"true"`), the note evaluation returns a Skip outcome immediately,
for every content of the other fields and every behaviour of the date parser;
in particular a draft note with an invalid or missing date is Skipped, never
Rejected. -/
theorem skip_takes_priority (dateOk : FMValue → Bool) (fm : Frontmatter)
    (h : isSkipTruthy (lookupFM fm ("can_skip")) = true ∨
      isSkipTruthy (lookupFM fm ("is_draft")) = true) :
    ∃ r, processNoteDecision dateOk fm = .skip r := by
  unfold processNoteDecision getSkipReason
  by_cases h1 : isSkipTruthy (lookupFM fm ("can_skip")) = true
  · rw [if_pos h1]
    exact ⟨_, rfl⟩
  · rcases h with h | h
    · exact absurd h h1
    · rw [if_neg h1, if_pos h]
      exact ⟨_, rfl⟩

/-- Witness for C1: a draft note with no date at all, against a date parser
that rejects everything, is still Skipped. -/
theorem skip_takes_priority_witness :
    ∃ r, processNoteDecision (fun _ => false) [(("is_draft"), FMValue.vbool true)] =
      .skip r :=
  skip_takes_priority (fun _ => false) [(("is_draft"), FMValue.vbool true)] (Or.inr rfl)

/-- Claim C2 (amended): after frontmatter normalization the `tags` and
`authors` fields are always present and are arrays — never a scalar and never
absent; a missing value becomes the empty array and a truthy string scalar
becomes a one-element array — but the elements of a pre-existing array are
passed through unchanged, so they need not be strings. -/
theorem tags_authors_always_arrays (fm : Frontmatter) (filename : String)
    (getB : String → String) :
    (∃ xs, lookupFM (processFrontmatter fm filename getB) ("tags") = some (.varr xs)) ∧
    (∃ ys, lookupFM (processFrontmatter fm filename getB) ("authors") = some (.varr ys)) ∧
    (lookupFM fm ("tags") = none →
      lookupFM (processFrontmatter fm filename getB) ("tags") = some (.varr [])) ∧
    (lookupFM fm ("authors") = none →
      lookupFM (processFrontmatter fm filename getB) ("authors") = some (.varr [])) ∧
    (∀ s, ¬s = ("") → lookupFM fm ("authors") = some (.vstr s) →
      lookupFM (processFrontmatter fm filename getB) ("authors") =
        some (.varr [.vstr s])) := by
  obtain ⟨xs, hxs⟩ := normalizeArrayFM_arr
    (lookupFM (if titleCond fm then setKey fm ("title") (FMValue.vstr (getB filename))
      else fm) ("tags"))
  obtain ⟨ys, hys⟩ := normalizeArrayFM_arr
    (lookupFM (setKey (if titleCond fm then setKey fm ("title")
      (FMValue.vstr (getB filename)) else fm) ("tags") (FMValue.varr xs)) ("authors"))
  have heq := processFrontmatter_unfold fm filename getB _ rfl xs hxs ys hys
  rw [heq]
  have hfm1tags : lookupFM (if titleCond fm then setKey fm ("title")
      (FMValue.vstr (getB filename)) else fm) ("tags") = lookupFM fm ("tags") := by
    by_cases h : titleCond fm = true
    · rw [if_pos h]
      exact lookup_setKey_other _ _ _ _ (by decide)
    · rw [if_neg h]
  have hfm1auth : lookupFM (if titleCond fm then setKey fm ("title")
      (FMValue.vstr (getB filename)) else fm) ("authors") = lookupFM fm ("authors") := by
    by_cases h : titleCond fm = true
    · rw [if_pos h]
      exact lookup_setKey_other _ _ _ _ (by decide)
    · rw [if_neg h]
  have hfm2auth : lookupFM (setKey (if titleCond fm then setKey fm ("title")
        (FMValue.vstr (getB filename)) else fm) ("tags") (FMValue.varr xs)) ("authors") =
      lookupFM fm ("authors") := by
    rw [lookup_setKey_other _ _ _ _ (by decide)]
    exact hfm1auth
  have htagsFinal : lookupFM (setKey (setKey (setKey (if titleCond fm then setKey fm
        ("title") (FMValue.vstr (getB filename)) else fm) ("tags") (FMValue.varr xs))
        ("authors") (FMValue.varr ys)) ("tags") (FMValue.varr (xs.map stripHashTag)))
      ("tags") = some (FMValue.varr (xs.map stripHashTag)) :=
    lookup_setKey_same _ _ _
  have hauthFinal : lookupFM (setKey (setKey (setKey (if titleCond fm then setKey fm
        ("title") (FMValue.vstr (getB filename)) else fm) ("tags") (FMValue.varr xs))
        ("authors") (FMValue.varr ys)) ("tags") (FMValue.varr (xs.map stripHashTag)))
      ("authors") = some (FMValue.varr ys) := by
    rw [lookup_setKey_other _ _ _ _ (by decide)]
    exact lookup_setKey_same _ _ _
  refine ⟨⟨_, htagsFinal⟩, ⟨_, hauthFinal⟩, ?_, ?_, ?_⟩
  · intro hnone
    rw [hfm1tags, hnone] at hxs
    have : xs = [] := by
      have h2 : FMValue.varr [] = FMValue.varr xs := hxs
      injection h2 with h3
      exact h3.symm
    rw [htagsFinal, this]
    rfl
  · intro hnone
    rw [hfm2auth, hnone] at hys
    have : ys = [] := by
      have h2 : FMValue.varr [] = FMValue.varr ys := hys
      injection h2 with h3
      exact h3.symm
    rw [hauthFinal, this]
  · intro s hs hsome
    rw [hfm2auth, hsome] at hys
    have hbe : (s == ("")) = false := by
      simp only [beq_eq_false_iff_ne, ne_eq]
      exact hs
    simp only [normalizeArrayFM, hbe] at hys
    have : ys = [FMValue.vstr s] := by
      rw [if_neg (by simp [hbe])] at hys
      injection hys with h3
      exact h3.symm
    rw [hauthFinal, this]

/-- Claim C2 as stated is refuted: normalization leaves a pre-existing
array's non-string elements in place, so after normalization `tags` is an
array but not an array of strings. -/
theorem tags_not_strings_cex :
    lookupFM (processFrontmatter [(("tags"), FMValue.varr [FMValue.vbool true])] ("a.md")
        jsGetBasename) ("tags") = some (FMValue.varr [FMValue.vbool true]) ∧
    isStrFM (FMValue.vbool true) = false :=
  ⟨rfl, rfl⟩

/-- Witness for the amended C2 at a concrete input. -/
theorem tags_authors_always_arrays_witness :
    lookupFM (processFrontmatter [(("authors"), FMValue.vstr ("ann"))] ("a.md")
        jsGetBasename) ("tags") = some (FMValue.varr []) ∧
    lookupFM (processFrontmatter [(("authors"), FMValue.vstr ("ann"))] ("a.md")
        jsGetBasename) ("authors") = some (FMValue.varr [FMValue.vstr ("ann")]) :=
  ⟨(tags_authors_always_arrays _ _ _).2.2.1 rfl,
    (tags_authors_always_arrays _ _ _).2.2.2.2 ("ann") (by decide) rfl⟩

/-- Claim C10 (amended): normalization sets `title` to the file's basename
without extension when the provided title is absent, not a string, or trims
to the empty string, and leaves the provided title unchanged otherwise; the
resulting title is a non-empty string provided the file's basename is
non-empty (an empty filename yields an empty basename and an empty title). -/
theorem title_fallback (fm : Frontmatter) (filename : String)
    (hbe : jsGetBasename filename ≠ ("")) :
    (titleCond fm = true →
      lookupFM (processFrontmatter fm filename jsGetBasename) ("title") =
        some (.vstr (jsGetBasename filename))) ∧
    (titleCond fm = false →
      lookupFM (processFrontmatter fm filename jsGetBasename) ("title") =
        lookupFM fm ("title")) ∧
    (∃ t, lookupFM (processFrontmatter fm filename jsGetBasename) ("title") =
      some (.vstr t) ∧ t ≠ ("")) := by
  obtain ⟨xs, hxs⟩ := normalizeArrayFM_arr
    (lookupFM (if titleCond fm then setKey fm ("title")
      (FMValue.vstr (jsGetBasename filename)) else fm) ("tags"))
  obtain ⟨ys, hys⟩ := normalizeArrayFM_arr
    (lookupFM (setKey (if titleCond fm then setKey fm ("title")
      (FMValue.vstr (jsGetBasename filename)) else fm) ("tags") (FMValue.varr xs))
      ("authors"))
  have heq := processFrontmatter_unfold fm filename jsGetBasename _ rfl xs hxs ys hys
  rw [heq]
  have htitle : lookupFM (setKey (setKey (setKey (if titleCond fm then setKey fm
        ("title") (FMValue.vstr (jsGetBasename filename)) else fm) ("tags")
        (FMValue.varr xs)) ("authors") (FMValue.varr ys)) ("tags")
        (FMValue.varr (xs.map stripHashTag))) ("title") =
      lookupFM (if titleCond fm then setKey fm ("title")
        (FMValue.vstr (jsGetBasename filename)) else fm) ("title") := by
    rw [lookup_setKey_other _ _ _ _ (by decide)]
    rw [lookup_setKey_other _ _ _ _ (by decide)]
    rw [lookup_setKey_other _ _ _ _ (by decide)]
  refine ⟨?_, ?_, ?_⟩
  · intro hcond
    rw [htitle, if_pos hcond]
    exact lookup_setKey_same _ _ _
  · intro hcond
    rw [htitle, if_neg (by rw [hcond]; exact Bool.false_ne_true)]
  · by_cases hcond : titleCond fm = true
    · refine ⟨jsGetBasename filename, ?_, ?_⟩
      · rw [htitle, if_pos hcond]
        exact lookup_setKey_same _ _ _
      · exact hbe
    · have hcf : titleCond fm = false := by
        cases h2 : titleCond fm
        · rfl
        · exact absurd h2 hcond
      cases hl : lookupFM fm ("title") with
      | none =>
        exfalso
        apply hcond
        simp only [titleCond, hl]
      | some v =>
        cases v with
        | vstr s =>
          have hcc : (s == ("") || (jsTrimL s.data).isEmpty) = false := by
            have := hcf
            simp only [titleCond, hl] at this
            exact this
          have hsne : s ≠ ("") := by
            intro hh
            subst hh
            simp at hcc
          refine ⟨s, ?_, hsne⟩
          rw [htitle, if_neg (by rw [hcf]; exact Bool.false_ne_true), hl]
        | vbool b =>
          exfalso
          apply hcond
          simp only [titleCond, hl]
        | vnum n =>
          exfalso
          apply hcond
          simp only [titleCond, hl]
        | vnull =>
          exfalso
          apply hcond
          simp only [titleCond, hl]
        | varr zs =>
          exfalso
          apply hcond
          simp only [titleCond, hl]

/-- Claim C10 as stated is refuted: for the empty filename the basename is
empty, so normalization produces an empty-string title. -/
theorem title_empty_cex :
    lookupFM (processFrontmatter [] ("") jsGetBasename) ("title") =
      some (FMValue.vstr ("")) := rfl

/-- Witness for the amended C10 at a concrete input. -/
theorem title_fallback_witness :
    ∃ t, lookupFM (processFrontmatter [] ("blog post.md") jsGetBasename) ("title") =
      some (FMValue.vstr t) ∧ t ≠ ("") :=
  (title_fallback [] ("blog post.md") (by decide)).2.2

-- ### relocator lemmas

theorem mapExceptAllOk {α β : Type} {f : α → Except String β} {g : α → β} :
    ∀ {l : List α}, (∀ a ∈ l, f a = .ok (g a)) → mapExcept f l = .ok (l.map g)
  | [], _ => rfl
  | a :: l, h => by
    have h1 := h a (List.mem_cons_self a l)
    have h2 := mapExceptAllOk fun b hb => h b (List.mem_cons_of_mem a hb)
    simp only [mapExcept, h1, h2, List.map_cons]

theorem mapExceptHeadErr {α β : Type} {f : α → Except String β} {a : α} {e : String}
    (h : f a = .error e) (l : List α) : mapExcept f (a :: l) = .error e := by
  simp only [mapExcept, h]

theorem processImages_nil {fs : FSOracle} {content sourceDir destDir : String}
    (hms : findTokens content.data = []) :
    processImages fs content sourceDir destDir = .ok (content, []) := by
  unfold processImages
  rw [hms]

theorem processImages_cons {fs : FSOracle} {content sourceDir destDir : String}
    {m : List Char × List Char} {ms : List (List Char × List Char)}
    (hms : findTokens content.data = m :: ms) :
    processImages fs content sourceDir destDir =
      (match fs.ensureDir (jsPathJoin destDir ("assets")) with
      | .error e => .error e
      | .ok _ =>
        match mapExcept (fun mm => copyImage fs (jsPathJoin sourceDir (String.mk mm.2))
            (jsPathJoin (jsPathJoin destDir ("assets")) (String.mk (normalizeImageNameL mm.2)))
            (String.mk mm.2) (String.mk (normalizeImageNameL mm.2))) (m :: ms) with
        | .error e => .error e
        | .ok results => .ok (String.mk (rewriteTokens content.data (m :: ms)), results)) := by
  unfold processImages
  rw [hms]

theorem processImages_content {fs : FSOracle} {content sourceDir destDir : String}
    {p : String × List CopyRes}
    (h : processImages fs content sourceDir destDir = .ok p) :
    p.1 = String.mk (rewriteTokens content.data (findTokens content.data)) := by
  cases hms : findTokens content.data with
  | nil =>
    rw [processImages_nil hms] at h
    injection h with h2
    rw [← h2]
    rfl
  | cons m ms =>
    rw [processImages_cons hms] at h
    split at h
    · exact absurd h (by simp)
    · split at h
      · exact absurd h (by simp)
      · injection h with h2
        rw [← h2]

/-- Claim C3: a copy attempt whose source file does not exist yields a
`success:false` result and aborts neither the remaining images nor the note,
while any other I/O error thrown during the copy propagates out of the
relocator as a hard failure of the whole call instead of being converted into
a `success:false` result. -/
theorem copy_missing_vs_io_error :
    (∀ (fs : FSOracle) (sp dp o n : String), fs.pathExists sp = false →
      copyImage fs sp dp o n = .ok ⟨false, o, none, some ("missing")⟩) ∧
    (∀ (fs : FSOracle) (sp dp o n e : String), fs.pathExists sp = true →
      fs.copy sp dp = .error e → copyImage fs sp dp o n = .error e) ∧
    (∀ (fs : FSOracle) (content sourceDir destDir : String),
      (∀ p, fs.pathExists p = false) →
      fs.ensureDir (jsPathJoin destDir ("assets")) = .ok () →
      ∃ body results, processImages fs content sourceDir destDir = .ok (body, results) ∧
        results.length = (findTokens content.data).length ∧
        ∀ r ∈ results, r.success = false) ∧
    (∀ (fs : FSOracle) (content sourceDir destDir e : String),
      (∀ p, fs.pathExists p = true) → (∀ a b, fs.copy a b = .error e) →
      findTokens content.data ≠ [] →
      fs.ensureDir (jsPathJoin destDir ("assets")) = .ok () →
      processImages fs content sourceDir destDir = .error e) := by
  refine ⟨?_, ?_, ?_, ?_⟩
  · intro fs sp dp o n h
    unfold copyImage
    rw [if_neg (by simp [h])]
  · intro fs sp dp o n e h h2
    simp only [copyImage, h, if_pos, h2]
  · intro fs content sourceDir destDir hmiss hens
    cases hms : findTokens content.data with
    | nil =>
      refine ⟨content, [], processImages_nil hms, rfl, ?_⟩
      intro r hr
      simp at hr
    | cons m ms =>
      have hall : ∀ x ∈ (m :: ms),
          (fun mm => copyImage fs (jsPathJoin sourceDir (String.mk mm.2))
            (jsPathJoin (jsPathJoin destDir ("assets")) (String.mk (normalizeImageNameL mm.2)))
            (String.mk mm.2) (String.mk (normalizeImageNameL mm.2))) x =
          .ok ((fun mm => (⟨false, String.mk mm.2, none, some ("missing")⟩ : CopyRes)) x) := by
        intro x _
        show copyImage fs _ _ _ _ = _
        unfold copyImage
        rw [if_neg (by simp [hmiss])]
      have hmap := mapExceptAllOk hall
      refine ⟨String.mk (rewriteTokens content.data (m :: ms)),
        (m :: ms).map (fun mm => (⟨false, String.mk mm.2, none, some ("missing")⟩ : CopyRes)),
        ?_, ?_, ?_⟩
      · simp only [processImages_cons hms, hens, hmap]
      · rw [List.length_map]
      · intro r hr
        rcases List.mem_map.mp hr with ⟨x, _, hx⟩
        rw [← hx]
  · intro fs content sourceDir destDir e hex hcopy hne hens
    cases hms : findTokens content.data with
    | nil => exact absurd hms hne
    | cons m ms =>
      have hfm : copyImage fs (jsPathJoin sourceDir (String.mk m.2))
          (jsPathJoin (jsPathJoin destDir ("assets")) (String.mk (normalizeImageNameL m.2)))
          (String.mk m.2) (String.mk (normalizeImageNameL m.2)) = .error e := by
        unfold copyImage
        rw [if_pos (hex _), hcopy]
      have hfm2 : (fun mm => copyImage fs (jsPathJoin sourceDir (String.mk mm.2))
          (jsPathJoin (jsPathJoin destDir ("assets")) (String.mk (normalizeImageNameL mm.2)))
          (String.mk mm.2) (String.mk (normalizeImageNameL mm.2))) m = .error e := hfm
      simp only [processImages_cons hms, hens]
      rw [@mapExceptHeadErr (List Char × List Char) CopyRes
        (fun mm => copyImage fs (jsPathJoin sourceDir (String.mk mm.2))
          (jsPathJoin (jsPathJoin destDir ("assets")) (String.mk (normalizeImageNameL mm.2)))
          (String.mk mm.2) (String.mk (normalizeImageNameL mm.2))) m e hfm2 ms]

/-- Witness for C3 at concrete oracles: a missing source gives a
`success:false` result; a throwing copy propagates out of `copyImage` and out
of `processImages`. -/
theorem copy_missing_vs_io_error_witness :
    copyImage fsAllMissing ("src/a.png") ("dst/a.png") ("a.png") ("a.png") =
      .ok ⟨false, ("a.png"), none, some ("missing")⟩ ∧
    copyImage fsCopyFails ("src/a.png") ("dst/a.png") ("a.png") ("a.png") =
      .error ("EACCES") ∧
    processImages fsCopyFails ("a ![[x.png]] b") ("s") ("d") = .error ("EACCES") :=
  ⟨copy_missing_vs_io_error.1 fsAllMissing _ _ _ _ rfl,
    copy_missing_vs_io_error.2.1 fsCopyFails _ _ _ _ ("EACCES") rfl rfl,
    copy_missing_vs_io_error.2.2.2 fsCopyFails _ _ _ ("EACCES") (fun _ => rfl)
      (fun _ _ => rfl) (by decide) rfl⟩

/-- Claim C6: image-name normalization lower-cases only the base name,
collapses whitespace runs to single hyphens and preserves the extension's
characters and case exactly — `![[My Photo.PNG]]` normalizes to
`my-photo.PNG` — and the relocator's output body replaces every matched token
by `![<normalizedName>](./assets/<normalizedName>)` regardless of whether the
corresponding copy succeeded: the output body is a function of the input body
alone, identical for every file-system behaviour that lets the call finish. -/
theorem image_rewrite_deterministic :
    normalizeImageName ("My Photo.PNG") = ("my-photo.PNG") ∧
    (∀ (fs : FSOracle) (content sourceDir destDir : String) (p : String × List CopyRes),
      processImages fs content sourceDir destDir = .ok p →
      p.1 = String.mk (rewriteTokens content.data (findTokens content.data))) ∧
    (∀ (fs1 fs2 : FSOracle) (content sourceDir destDir : String)
      (p1 p2 : String × List CopyRes),
      processImages fs1 content sourceDir destDir = .ok p1 →
      processImages fs2 content sourceDir destDir = .ok p2 → p1.1 = p2.1) ∧
    processImages fsAllMissing ("before ![[My Photo.PNG]] after") ("src") ("dst") =
      .ok (("before ![my-photo.PNG](./assets/my-photo.PNG) after"),
        [⟨false, ("My Photo.PNG"), none, some ("missing")⟩]) := by
  refine ⟨by decide, ?_, ?_, rfl⟩
  · intro fs content sourceDir destDir p h
    exact processImages_content h
  · intro fs1 fs2 content sourceDir destDir p1 p2 h1 h2
    rw [processImages_content h1, processImages_content h2]

/-- Witness for C6: the same note body rewrites identically whether every
image copy fails (missing source) or every copy succeeds. -/
theorem image_rewrite_deterministic_witness :
    ∃ p1 p2, processImages fsAllMissing ("x ![[A B.png]] y") ("s") ("d") = .ok p1 ∧
      processImages fsAllOk ("x ![[A B.png]] y") ("s") ("d") = .ok p2 ∧ p1.1 = p2.1 :=
  ⟨(("x ![a-b.png](./assets/a-b.png) y"),
      [⟨false, ("A B.png"), none, some ("missing")⟩]),
    (("x ![a-b.png](./assets/a-b.png) y"),
      [⟨true, ("A B.png"), some ("a-b.png"), none⟩]),
    rfl, rfl,
    image_rewrite_deterministic.2.2.1 fsAllMissing fsAllOk ("x ![[A B.png]] y") ("s") ("d")
      _ _ rfl rfl⟩

/-- Claim C7: when an existing remote article id is known — found by
canonical-URL lookup or taken from the persisted metadata record — and the
update call for that id fails, the cross-poster falls back to creating a new
remote article: the outcome is exactly that of `createArticle`, so the update
error is never surfaced and never aborts the sync of the post by itself. -/
theorem update_falls_back_to_create (api : DevtoApi)
    (existingArticle : Option RemoteArticle) (existingMeta : Option MetaRecord)
    (aid : Nat) (e : String)
    (hid : jsOrId (existingArticle.map (fun a => a.id))
      (existingMeta.map (fun m => m.devtoId)) = some aid)
    (hne : aid ≠ 0) (hupd : api.update aid = .error e) :
    syncArticle api existingArticle existingMeta = api.create := by
  simp only [syncArticle, hid]
  rw [if_pos hne, hupd]

/-- Witness for C7: a persisted metadata id whose update endpoint fails ends
in the create result. -/
theorem update_falls_back_to_create_witness :
    syncArticle apiUpdateFails none (some ⟨3, ("u"), ("c"), ("t")⟩) =
      apiUpdateFails.create :=
  update_falls_back_to_create apiUpdateFails none (some ⟨3, ("u"), ("c"), ("t")⟩) 3
    ("500 update failed") rfl (by decide) rfl

/-- Claim C8: the cross-poster's tag sanitizer removes hyphens, underscores
and whitespace, lower-cases, strips remaining non-alphanumerics, drops tags
that become empty and non-string entries, and silently keeps at most four
tags; on `["My-Tag", "c++", "", "a b", "tag5", "tag6"]` it yields
`["mytag", "c", "ab", "tag5"]`. -/
theorem sanitize_tags_spec :
    sanitizeTags (FMValue.varr [FMValue.vstr ("My-Tag"), FMValue.vstr ("c++"),
      FMValue.vstr (""), FMValue.vstr ("a b"), FMValue.vstr ("tag5"),
      FMValue.vstr ("tag6")]) = [("mytag"), ("c"), ("ab"), ("tag5")] ∧
    (∀ v, (sanitizeTags v).length ≤ 4) ∧
    (∀ v t, t ∈ sanitizeTags v → ¬t = ("") ∧ ∀ c ∈ t.data, isLowerAlnum c = true) ∧
    sanitizeTags (FMValue.varr [FMValue.vbool true, FMValue.vstr ("Ok")]) = [("ok")] ∧
    sanitizeTags (FMValue.vstr ("solo")) = [] := by
  refine ⟨by decide, ?_, ?_, by decide, rfl⟩
  · intro v
    cases v with
    | varr xs => exact List.length_take_le 4 _
    | vstr s => exact Nat.zero_le 4
    | vbool b => exact Nat.zero_le 4
    | vnum n => exact Nat.zero_le 4
    | vnull => exact Nat.zero_le 4
  · intro v t ht
    cases v with
    | vstr s => simp [sanitizeTags] at ht
    | vbool b => simp [sanitizeTags] at ht
    | vnum n => simp [sanitizeTags] at ht
    | vnull => simp [sanitizeTags] at ht
    | varr xs =>
      have ht2 := List.mem_of_mem_take ht
      rcases List.mem_filterMap.mp ht2 with ⟨x, _, hx⟩
      cases x with
      | vstr s =>
        by_cases hse : sanitizeTag s = ("")
        · simp [hse] at hx
        · simp only [if_neg hse] at hx
          injection hx with hx2
          subst hx2
          refine ⟨hse, ?_⟩
          intro c hc
          exact (List.mem_filter.mp (memTrim hc)).2
      | vbool b => simp at hx
      | vnum n => simp at hx
      | vnull => simp at hx
      | varr ys => simp at hx

/-- Witness for C8's membership property at a concrete tag list. -/
theorem sanitize_tags_spec_witness :
    ¬("mytag" : String) = ("") ∧ ∀ c ∈ ("mytag" : String).data, isLowerAlnum c = true :=
  sanitize_tags_spec.2.2.1 (FMValue.varr [FMValue.vstr ("My-Tag")]) ("mytag") (by decide)

-- ### batch-runner lemmas

theorem chunkedF_flatten {α : Type} (c : Nat) :
    ∀ (fuel : Nat) (l : List α), l.length ≤ fuel →
      (chunkedF fuel (c + 1) l).flatten = l
  | 0, l, h => by
    have hl : l = [] := List.length_eq_zero.mp (Nat.le_zero.mp h)
    subst hl
    rfl
  | fuel + 1, [], _ => rfl
  | fuel + 1, x :: xs, h => by
    simp only [chunkedF, List.flatten_cons]
    rw [chunkedF_flatten c fuel ((x :: xs).drop (c + 1)) (by
      rw [List.length_drop]
      simp only [List.length_cons] at h ⊢
      omega)]
    exact List.take_append_drop (c + 1) (x :: xs)

theorem flattenMap {α β : Type} (f : α → β) :
    ∀ (L : List (List α)), (L.map (fun b => b.map f)).flatten = L.flatten.map f
  | [] => rfl
  | b :: L => by
    simp only [List.map_cons, List.flatten_cons, List.map_append, flattenMap f L]

theorem pfip_eq (proc : String → Settled NoteRes) (dir : String) (files : List String)
    (c : Nat) (hc : 0 < c) :
    processFilesInParallel proc dir files c =
      files.map (fun f => settleOne proc (jsPathJoin dir f)) := by
  cases c with
  | zero => omega
  | succ c2 =>
    unfold processFilesInParallel chunked
    rw [flattenMap]
    rw [chunkedF_flatten c2 _ _ (Nat.le_refl _)]
    rw [List.map_map]
    rfl

/-- Claim C4: for every list of note files and every positive window size the
batch runner returns exactly one result per note — the settled outcome of
that note alone, in input order — so a rejection of one note's promise
becomes an `error` entry for that note and cannot affect any other note's
entry in the same or a later window; every entry is tagged imported, skipped
or error, and the windows partition the file list in order.  (A window size
of `0` would loop forever in the source, hence `0 < c`.) -/
theorem batch_complete (proc : String → Settled NoteRes) (dir : String)
    (files : List String) (c : Nat) (hc : 0 < c) :
    (processFilesInParallel proc dir files c).length = files.length ∧
    processFilesInParallel proc dir files c =
      files.map (fun f => settleOne proc (jsPathJoin dir f)) ∧
    (∀ fp m, proc fp = .rejected m → (settleOne proc fp).status = .error) ∧
    (∀ r ∈ processFilesInParallel proc dir files c,
      r.status = .imported ∨ r.status = .skipped ∨ r.status = .error) ∧
    (chunked c (files.map (fun f => jsPathJoin dir f))).flatten =
      files.map (fun f => jsPathJoin dir f) := by
  have hmain := pfip_eq proc dir files c hc
  refine ⟨by rw [hmain, List.length_map], hmain, ?_, ?_, ?_⟩
  · intro fp m h
    unfold settleOne
    rw [h]
  · intro r hr
    rw [hmain] at hr
    rcases List.mem_map.mp hr with ⟨f, _, hf⟩
    rw [← hf]
    unfold settleOne
    cases hp : proc (jsPathJoin dir f) with
    | fulfilled v =>
      obtain ⟨st, fn, msg, sl⟩ := v
      cases st
      · exact Or.inl rfl
      · exact Or.inr (Or.inl rfl)
      · exact Or.inr (Or.inr rfl)
    | rejected m => exact Or.inr (Or.inr rfl)
  · cases c with
    | zero => omega
    | succ c2 =>
      unfold chunked
      exact chunkedF_flatten c2 _ _ (Nat.le_refl _)

/-- Witness for C4: three notes whose processing promise always rejects still
produce exactly three results with window size 2. -/
theorem batch_complete_witness :
    (processFilesInParallel (fun _ => Settled.rejected ("boom")) ("md")
      [("a.md"), ("b.md"), ("c.md")] 2).length = 3 :=
  (batch_complete (fun _ => Settled.rejected ("boom")) ("md")
    [("a.md"), ("b.md"), ("c.md")] 2 (by decide)).1

-- ### codec lemmas: trimming, joining and splitting

theorem joinSep_cons (sep x : List Char) {xs : List (List Char)} (h : xs ≠ []) :
    joinSep sep (x :: xs) = x ++ sep ++ joinSep sep xs := by
  cases xs with
  | nil => exact absurd rfl h
  | cons y ys => rfl

theorem joinSep_append_last (sep y : List Char) :
    ∀ {xs : List (List Char)}, xs ≠ [] →
      joinSep sep (xs ++ [y]) = joinSep sep xs ++ sep ++ y
  | [], h => absurd rfl h
  | [x], _ => by
    show joinSep sep (x :: [y]) = x ++ sep ++ y
    rfl
  | x :: x2 :: rest, _ => by
    rw [List.cons_append, joinSep_cons sep x (by simp),
      joinSep_cons sep x (by simp : x2 :: rest ≠ []),
      joinSep_append_last sep y (by simp : x2 :: rest ≠ [])]
    simp [List.append_assoc]

theorem memJoinSep {sep : List Char} {c : Char} :
    ∀ {ls : List (List Char)}, c ∈ joinSep sep ls → c ∈ sep ∨ ∃ l ∈ ls, c ∈ l
  | [], h => by simp [joinSep] at h
  | [x], h => Or.inr ⟨x, by simp, h⟩
  | x :: y :: rest, h => by
    rw [joinSep_cons sep x (by simp)] at h
    rcases List.mem_append.mp h with h2 | h2
    · rcases List.mem_append.mp h2 with h3 | h3
      · exact Or.inr ⟨x, by simp, h3⟩
      · exact Or.inl h3
    · rcases memJoinSep h2 with h3 | ⟨l, hl, hcl⟩
      · exact Or.inl h3
      · exact Or.inr ⟨l, List.mem_cons_of_mem x hl, hcl⟩

theorem lenDropWhile (p : α → Bool) : ∀ (l : List α), (l.dropWhile p).length ≤ l.length
  | [] => Nat.le_refl 0
  | c :: l => by
    by_cases h : p c = true
    · rw [List.dropWhile_cons_of_pos h]
      exact Nat.le_succ_of_le (lenDropWhile p l)
    · rw [List.dropWhile_cons_of_neg h]

theorem dropWhileLenEq {p : α → Bool} :
    ∀ {l : List α}, (l.dropWhile p).length = l.length → l.dropWhile p = l
  | [], _ => rfl
  | c :: l, h => by
    by_cases hc : p c = true
    · rw [List.dropWhile_cons_of_pos hc] at h ⊢
      have := lenDropWhile p l
      simp only [List.length_cons] at h
      omega
    · rw [List.dropWhile_cons_of_neg hc]

theorem trimFix_head {l : List Char} {c : Char} (ht : jsTrimL l = l)
    (hh : l.head? = some c) : jsIsWs c = false := by
  have hlen1 : (jsTrimL l).length ≤ (l.dropWhile jsIsWs).length := by
    unfold jsTrimL
    rw [List.length_reverse]
    calc ((l.dropWhile jsIsWs).reverse.dropWhile jsIsWs).length
        ≤ (l.dropWhile jsIsWs).reverse.length := lenDropWhile _ _
      _ = (l.dropWhile jsIsWs).length := List.length_reverse _
  rw [ht] at hlen1
  have hdw : l.dropWhile jsIsWs = l :=
    dropWhileLenEq (Nat.le_antisymm (lenDropWhile _ _) hlen1)
  cases l with
  | nil => simp at hh
  | cons c2 l2 =>
    injection hh with hh2
    rw [← hh2]
    by_cases hc : jsIsWs c2 = true
    · rw [List.dropWhile_cons_of_pos hc] at hdw
      have := lenDropWhile jsIsWs l2
      have hlen := congrArg List.length hdw
      simp only [List.length_cons] at hlen
      omega
    · exact Bool.eq_false_iff.mpr hc

theorem trimFix_last {l : List Char} {c : Char} (ht : jsTrimL l = l)
    (hh : l.getLast? = some c) : jsIsWs c = false := by
  have hlen1 : (jsTrimL l).length ≤ (l.dropWhile jsIsWs).length := by
    unfold jsTrimL
    rw [List.length_reverse]
    calc ((l.dropWhile jsIsWs).reverse.dropWhile jsIsWs).length
        ≤ (l.dropWhile jsIsWs).reverse.length := lenDropWhile _ _
      _ = (l.dropWhile jsIsWs).length := List.length_reverse _
  rw [ht] at hlen1
  have hdw : l.dropWhile jsIsWs = l :=
    dropWhileLenEq (Nat.le_antisymm (lenDropWhile _ _) hlen1)
  have hrev : l.reverse.dropWhile jsIsWs = l.reverse := by
    have h2 : jsTrimL l = (l.reverse.dropWhile jsIsWs).reverse := by
      unfold jsTrimL
      rw [hdw]
    rw [ht] at h2
    have h3 := congrArg List.reverse h2
    rw [List.reverse_reverse] at h3
    exact h3.symm
  have hh2 : l.reverse.head? = some c := by
    rw [List.head?_reverse]
    exact hh
  cases hr : l.reverse with
  | nil =>
    rw [hr] at hh2
    simp at hh2
  | cons c2 l2 =>
    rw [hr] at hh2 hrev
    injection hh2 with hh3
    rw [← hh3]
    by_cases hc : jsIsWs c2 = true
    · rw [List.dropWhile_cons_of_pos hc] at hrev
      have := lenDropWhile jsIsWs l2
      have hlen := congrArg List.length hrev
      simp only [List.length_cons] at hlen
      omega
    · exact Bool.eq_false_iff.mpr hc

theorem trimEdge {l : List Char} {c0 cN : Char} (h0 : l.head? = some c0)
    (hw0 : jsIsWs c0 = false) (hN : l.getLast? = some cN) (hwN : jsIsWs cN = false) :
    jsTrimL l = l := by
  cases l with
  | nil => rfl
  | cons c l2 =>
    injection h0 with h02
    have hw02 : jsIsWs c = false := by
      rw [h02]
      exact hw0
    unfold jsTrimL
    rw [List.dropWhile_cons_of_neg (by simp [hw02])]
    have hrev : (c :: l2).reverse.head? = some cN := by
      rw [List.head?_reverse]
      exact hN
    cases hr : (c :: l2).reverse with
    | nil => simp at hr
    | cons d r2 =>
      rw [hr] at hrev
      injection hrev with hrev2
      have hwN2 : jsIsWs d = false := by
        rw [hrev2]
        exact hwN
      rw [List.dropWhile_cons_of_neg (by simp [hwN2])]
      have h5 := congrArg List.reverse hr
      rw [List.reverse_reverse] at h5
      exact h5.symm

theorem lastIdxOf_none {a : Char} : ∀ {l : List Char}, a ∉ l → lastIdxOf a l = none
  | [], _ => rfl
  | c :: rest, h => by
    unfold lastIdxOf
    rw [lastIdxOf_none fun hm => h (List.mem_cons_of_mem c hm)]
    rw [if_neg]
    intro hc
    subst hc
    exact h (List.mem_cons_self _ _)

theorem splitOnChar_single {a : Char} : ∀ {l : List Char}, a ∉ l → splitOnChar a l = [l]
  | [], _ => rfl
  | c :: rest, h => by
    unfold splitOnChar
    rw [if_neg, splitOnChar_single fun hm => h (List.mem_cons_of_mem c hm)]
    intro hc
    subst hc
    exact h (List.mem_cons_self _ _)

theorem splitOnChar_append {a : Char} (s : List Char) :
    ∀ {l : List Char}, a ∉ l → splitOnChar a (l ++ a :: s) = l :: splitOnChar a s
  | [], _ => by
    rw [List.nil_append]
    simp only [splitOnChar]
    simp
  | c :: rest, h => by
    rw [List.cons_append]
    simp only [splitOnChar]
    rw [if_neg (by
      intro hc
      subst hc
      exact h (List.mem_cons_self _ _))]
    rw [splitOnChar_append s fun hm => h (List.mem_cons_of_mem c hm)]

theorem splitOnChar_join {a : Char} :
    ∀ {ls : List (List Char)}, ls ≠ [] → (∀ l ∈ ls, a ∉ l) →
      splitOnChar a (joinSep [a] ls) = ls
  | [], h, _ => absurd rfl h
  | [x], _, hmem => by
    show splitOnChar a x = [x]
    exact splitOnChar_single (hmem x (by simp))
  | x :: y :: rest, _, hmem => by
    rw [joinSep_cons [a] x (by simp)]
    rw [List.append_assoc, List.singleton_append]
    rw [splitOnChar_append _ (hmem x (by simp))]
    rw [splitOnChar_join (by simp) fun l hl => hmem l (List.mem_cons_of_mem x hl)]

theorem firstIdxOf_append {k : List Char} (r : List Char) (h : ':' ∉ k) :
    firstIdxOf ':' (k ++ ':' :: r) = some k.length := by
  induction k with
  | nil =>
    rw [List.nil_append]
    unfold firstIdxOf
    rw [if_pos rfl]
    rfl
  | cons c rest ih =>
    rw [List.cons_append]
    unfold firstIdxOf
    rw [if_neg]
    · rw [ih fun hm => h (List.mem_cons_of_mem c hm)]
      rfl
    · intro hc
      subst hc
      exact h (List.mem_cons_self _ _)

theorem closeAtS_not_nl {s : List Char} (h : s.head? ≠ some '\n') : closeAtS s = none := by
  unfold closeAtS
  rw [if_neg]
  intro habs
  cases s with
  | nil => simp at habs
  | cons c rest =>
    have ht : (c :: rest).take 4 = c :: rest.take 3 := rfl
    rw [ht] at habs
    injection habs with h1 _
    apply h
    rw [h1]
    rfl

theorem closeAtS_not_dash {c : Char} (hc : c ≠ '-') (z : List Char) :
    closeAtS ('\n' :: c :: z) = none := by
  unfold closeAtS
  rw [if_neg]
  intro habs
  have ht : ('\n' :: c :: z).take 4 = '\n' :: c :: z.take 2 := rfl
  rw [ht] at habs
  injection habs with _ h2
  injection h2 with h3 _
  exact hc h3

theorem findCloseS_skip_line :
    ∀ {l : List Char}, (∀ c ∈ l, c ≠ '\n') → ∀ (s : List Char),
      findCloseS (l ++ s) =
        (findCloseS s).map (fun ib => (ib.1 + l.length, ib.2 + l.length))
  | [], _, s => by
    rw [List.nil_append]
    cases h : findCloseS s with
    | none => rfl
    | some ib => simp
  | c :: rest, h, s => by
    rw [List.cons_append]
    simp only [findCloseS]
    rw [closeAtS_not_nl (by
      intro habs
      injection habs with h2
      exact h c (List.mem_cons_self _ _) h2)]
    rw [findCloseS_skip_line (fun c2 hc2 => h c2 (List.mem_cons_of_mem c hc2)) s]
    cases h3 : findCloseS s with
    | none => rfl
    | some ib => simp [Nat.add_assoc]

theorem findCloseS_close {b : List Char} (hb : '\n' ∉ b.takeWhile jsIsWs) :
    findCloseS ('\n' :: '-' :: '-' :: '-' :: '\n' :: b) = some (0, 5) := by
  have hclose : closeAtS ('\n' :: '-' :: '-' :: '-' :: '\n' :: b) = some 5 := by
    unfold closeAtS
    have hc4 : ('\n' :: '-' :: '-' :: '-' :: '\n' :: b).take 4 = ['\n', '-', '-', '-'] := rfl
    rw [if_pos hc4]
    have hdrop : ('\n' :: '-' :: '-' :: '-' :: '\n' :: b).drop 4 = '\n' :: b := rfl
    rw [hdrop]
    rw [List.takeWhile_cons_of_pos (by decide)]
    have hli : lastIdxOf '\n' ('\n' :: b.takeWhile jsIsWs) = some 0 := by
      unfold lastIdxOf
      rw [lastIdxOf_none hb, if_pos rfl]
    rw [hli]
  simp only [findCloseS, hclose]

theorem joinSep_head {sep : List Char} {c : Char} {y : List Char} (hy : y.head? = some c) :
    ∀ (rest : List (List Char)), ∃ z, joinSep sep (y :: rest) = c :: z := by
  intro rest
  cases y with
  | nil => simp at hy
  | cons c2 y2 =>
    injection hy with hy2
    subst hy2
    cases rest with
    | nil => exact ⟨y2, rfl⟩
    | cons r rs =>
      refine ⟨y2 ++ sep ++ joinSep sep (r :: rs), ?_⟩
      rw [joinSep_cons sep _ (by simp)]
      simp

theorem findCloseS_after_lines {b : List Char} (hb : '\n' ∉ b.takeWhile jsIsWs) :
    ∀ {ls : List (List Char)}, ls ≠ [] →
      (∀ l ∈ ls, l ≠ [] ∧ (∀ c ∈ l, c ≠ '\n') ∧ l.head? ≠ some '-') →
      findCloseS (joinSep ['\n'] ls ++ ('\n' :: '-' :: '-' :: '-' :: '\n' :: b)) =
        some ((joinSep ['\n'] ls).length, (joinSep ['\n'] ls).length + 5)
  | [], h, _ => absurd rfl h
  | [x], _, hok => by
    show findCloseS (x ++ _) = _
    rw [findCloseS_skip_line (hok x (by simp)).2.1 _, findCloseS_close hb]
    simp [joinSep, Nat.add_comm]
  | x :: y :: rest, _, hok => by
    have hx := hok x (by simp)
    have hy := hok y (by simp)
    obtain ⟨cy, y2, hy2⟩ : ∃ cy y2, y = cy :: y2 := by
      cases y with
      | nil => exact absurd rfl hy.1
      | cons cy y2 => exact ⟨cy, y2, rfl⟩
    subst hy2
    have hcy : cy ≠ '-' := by
      intro habs
      apply hy.2.2
      rw [habs]
      rfl
    obtain ⟨z, hz⟩ := joinSep_head (rfl : (cy :: y2).head? = some cy) rest
    rw [joinSep_cons ['\n'] x (by simp)]
    rw [List.append_assoc, List.append_assoc, List.singleton_append]
    rw [findCloseS_skip_line hx.2.1 _]
    have hstep : findCloseS ('\n' :: (joinSep ['\n'] ((cy :: y2) :: rest) ++
        ('\n' :: '-' :: '-' :: '-' :: '\n' :: b))) =
        (findCloseS (joinSep ['\n'] ((cy :: y2) :: rest) ++
          ('\n' :: '-' :: '-' :: '-' :: '\n' :: b))).map
            (fun ib => (ib.1 + 1, ib.2 + 1)) := by
      simp only [findCloseS]
      rw [hz, List.cons_append, closeAtS_not_dash hcy _]
    rw [hstep]
    rw [findCloseS_after_lines hb (by simp)
      (fun l hl => hok l (List.mem_cons_of_mem x hl))]
    simp only [Option.map, List.length_append, List.length_cons, List.length_nil,
      Option.some.injEq, Prod.mk.injEq]
    constructor <;> omega

theorem takeLeftApp : ∀ (l1 l2 : List Char), (l1 ++ l2).take l1.length = l1
  | [], _ => rfl
  | c :: l1, l2 => by
    rw [List.cons_append, List.length_cons, List.take_succ_cons, takeLeftApp l1 l2]

theorem dropAppUnit : ∀ (l1 l2 : List Char) (n : Nat), (l1 ++ l2).drop (l1.length + n) = l2.drop n
  | [], l2, n => by simp
  | c :: l1, l2, n => by
    rw [List.cons_append, List.length_cons]
    have harith : l1.length + 1 + n = (l1.length + n) + 1 := by omega
    rw [harith, List.drop_succ_cons, dropAppUnit l1 l2 n]

theorem key_shape {k : String} (hk : wfKey k) :
    ∃ c0 k2, k.data = c0 :: k2 ∧ jsIsWs c0 = false ∧ c0 ≠ '-' ∧ c0 ≠ '#' ∧ c0 ≠ ':' := by
  cases hdata : k.data with
  | nil => exact absurd hdata hk.1
  | cons c0 k2 =>
    refine ⟨c0, k2, rfl, ?_, ?_, ?_, ?_⟩
    · exact (hk.2.1 c0 (hdata ▸ List.mem_cons_self _ _)).1
    · intro habs
      apply hk.2.2.2
      rw [hdata, habs]
      rfl
    · intro habs
      apply hk.2.2.1
      rw [hdata, habs]
      rfl
    · exact (hk.2.1 c0 (hdata ▸ List.mem_cons_self _ _)).2

theorem formatValue_no_nl {v : FrontVal} (hv : wfVal v) :
    ∀ c ∈ formatValue v, c ≠ '\n' := by
  cases v with
  | str v2 =>
    intro c hc
    simp only [formatValue] at hc
    by_cases hcol : ':' ∈ v2.data
    · rw [if_pos hcol] at hc
      unfold quoteSingle at hc
      rcases List.mem_cons.mp hc with h | h
      · subst h
        decide
      · rcases List.mem_append.mp h with h2 | h2
        · exact hv.1 c h2
        · rcases List.mem_singleton.mp h2 with h3
          subst h3
          decide
    · rw [if_neg hcol] at hc
      exact hv.1 c hc
  | arr xs =>
    intro c hc
    simp only [formatValue] at hc
    rcases List.mem_cons.mp hc with h | h
    · subst h
      decide
    · rcases List.mem_append.mp h with h2 | h2
      · rcases memJoinSep h2 with h3 | ⟨l, hl, hcl⟩
        · rcases List.mem_cons.mp h3 with h4 | h4
          · subst h4
            decide
          · rcases List.mem_singleton.mp h4 with h5
            subst h5
            decide
        · rcases List.mem_map.mp hl with ⟨x, hx, hxq⟩
          rw [← hxq] at hcl
          unfold quoteSingle at hcl
          rcases List.mem_cons.mp hcl with h4 | h4
          · subst h4
            decide
          · rcases List.mem_append.mp h4 with h5 | h5
            · exact (hv x hx).1 c h5
            · rcases List.mem_singleton.mp h5 with h6
              subst h6
              decide
      · rcases List.mem_singleton.mp h2 with h3
        subst h3
        decide

theorem fieldLine_no_nl {k : String} {v : FrontVal} (hk : wfKey k) (hv : wfVal v) :
    ∀ c ∈ fieldLine (k, v), c ≠ '\n' := by
  intro c hc
  unfold fieldLine at hc
  rcases List.mem_append.mp hc with h | h
  · intro habs
    have := (hk.2.1 c h).1
    subst habs
    simp [jsIsWs] at this
  · rcases List.mem_cons.mp h with h2 | h2
    · subst h2
      decide
    · rcases List.mem_cons.mp h2 with h3 | h3
      · subst h3
        decide
      · exact formatValue_no_nl hv c h3

theorem fieldLines_ok {f : List (String × FrontVal)}
    (hf : ∀ kv ∈ f, wfKey kv.1 ∧ wfVal kv.2) :
    ∀ l ∈ f.map fieldLine, l ≠ [] ∧ (∀ c ∈ l, c ≠ '\n') ∧ l.head? ≠ some '-' := by
  intro l hl
  rcases List.mem_map.mp hl with ⟨kv, hkv, hkvl⟩
  obtain ⟨k, v⟩ := kv
  have hwf := hf (k, v) hkv
  obtain ⟨c0, k2, hk2, hws, hdash, hhash, hcol⟩ := key_shape hwf.1
  have hshape : fieldLine (k, v) = c0 :: (k2 ++ ':' :: ' ' :: formatValue v) := by
    unfold fieldLine
    rw [hk2]
    rfl
  subst hkvl
  refine ⟨by rw [hshape]; simp, fieldLine_no_nl hwf.1 hwf.2, ?_⟩
  rw [hshape]
  intro habs
  injection habs with habs2
  exact hdash habs2

theorem parseRaw_block {M T : List Char} {c0 : Char} {z : List Char}
    (hM : M = c0 :: z) (hws0 : jsIsWs c0 = false)
    (hfc : findCloseS (M ++ T) = some (M.length, M.length + 5)) :
    parseRaw ('-' :: '-' :: '-' :: '\n' :: (M ++ T)) = some (M, T.drop 5) := by
  unfold parseRaw
  have htake3 : ('-' :: '-' :: '-' :: '\n' :: (M ++ T)).take 3 = ['-', '-', '-'] := rfl
  rw [if_pos htake3]
  have hdrop3 : ('-' :: '-' :: '-' :: '\n' :: (M ++ T)).drop 3 = '\n' :: (M ++ T) := rfl
  rw [hdrop3]
  have htw : ('\n' :: (M ++ T)).takeWhile jsIsWs = ['\n'] := by
    rw [hM, List.cons_append]
    rw [List.takeWhile_cons_of_pos (by decide)]
    rw [List.takeWhile_cons_of_neg (by simp [hws0])]
  rw [htw]
  have hidx : (idxsOf '\n' ['\n']).reverse = [0] := rfl
  rw [hidx]
  simp only [parseRawTry]
  have hdrop4 : ('-' :: '-' :: '-' :: '\n' :: (M ++ T)).drop (3 + 0 + 1) = M ++ T := rfl
  rw [hdrop4, hfc]
  show some ((M ++ T).take M.length, (M ++ T).drop (M.length + 5)) = some (M, T.drop 5)
  rw [takeLeftApp M T, dropAppUnit M T 5]

theorem parseRaw_serialize {f : List (String × FrontVal)} {b : String}
    (hfne : f ≠ []) (hf : ∀ kv ∈ f, wfKey kv.1 ∧ wfVal kv.2) (hb : wfBody b) :
    parseRaw (serializeNote f b).data =
      some (joinSep ['\n'] (f.map fieldLine), b.data) := by
  obtain ⟨kv0, f2, hfcons⟩ : ∃ kv0 f2, f = kv0 :: f2 := by
    cases f with
    | nil => exact absurd rfl hfne
    | cons kv0 f2 => exact ⟨kv0, f2, rfl⟩
  have hmapne : f.map fieldLine ≠ [] := by
    rw [hfcons]
    simp
  have hdata : (serializeNote f b).data =
      '-' :: '-' :: '-' :: '\n' ::
        (joinSep ['\n'] (f.map fieldLine) ++
          ('\n' :: '-' :: '-' :: '-' :: '\n' :: b.data)) := by
    show formatFrontmatter f ++ '\n' :: b.data = _
    unfold formatFrontmatter
    rw [List.cons_append,
      joinSep_cons ['\n'] ['-', '-', '-']
        (show f.map fieldLine ++ [['-', '-', '-']] ≠ [] by simp),
      joinSep_append_last ['\n'] ['-', '-', '-'] hmapne]
    simp [List.append_assoc]
  have hkv0 := hf kv0 (by rw [hfcons]; exact List.mem_cons_self _ _)
  obtain ⟨c0, k2, hk0, hws0, hdash0, hhash0, hcol0⟩ := key_shape hkv0.1
  have hflhead : (fieldLine kv0).head? = some c0 := by
    unfold fieldLine
    rw [hk0]
    rfl
  obtain ⟨z, hz⟩ : ∃ z, joinSep ['\n'] (f.map fieldLine) = c0 :: z := by
    rw [hfcons, List.map_cons]
    exact joinSep_head hflhead _
  have hfc : findCloseS (joinSep ['\n'] (f.map fieldLine) ++
      ('\n' :: '-' :: '-' :: '-' :: '\n' :: b.data)) =
      some ((joinSep ['\n'] (f.map fieldLine)).length,
        (joinSep ['\n'] (f.map fieldLine)).length + 5) :=
    findCloseS_after_lines hb hmapne (fieldLines_ok hf)
  rw [hdata, parseRaw_block hz hws0 hfc]
  rfl

theorem jsTrimL_cons_ws {c : Char} (hc : jsIsWs c = true) (l : List Char) :
    jsTrimL (c :: l) = jsTrimL l := by
  unfold jsTrimL
  rw [List.dropWhile_cons_of_pos hc]

theorem memGetLast : ∀ {l : List Char} {c : Char}, l.getLast? = some c → c ∈ l
  | [], _, h => by simp at h
  | [d], c, h => by
    have h1 : some d = some c := h
    injection h1 with h2
    rw [← h2]
    exact List.mem_singleton_self _
  | d :: d2 :: l2, c, h => by
    rw [List.getLast?_cons_cons] at h
    exact List.mem_cons_of_mem d (memGetLast h)

theorem getLastAppRight : ∀ (l : List Char) {r : List Char}, r ≠ [] →
    (l ++ r).getLast? = r.getLast?
  | [], _, _ => by rw [List.nil_append]
  | c :: l2, r, hr => by
    rw [List.cons_append]
    have h2 := getLastAppRight l2 hr
    cases hlr : l2 ++ r with
    | nil => exact absurd (List.append_eq_nil.mp hlr).2 hr
    | cons d r2 =>
      rw [hlr] at h2
      rw [List.getLast?_cons_cons]
      exact h2

theorem getLastConcat (l : List Char) (c : Char) : (l ++ [c]).getLast? = some c :=
  (getLastAppRight l (by simp)).trans rfl

theorem dropLastConcat (l : List Char) (c : Char) : (l ++ [c]).dropLast = l := by
  simp

theorem dropWhile_getLast {p : Char → Bool} :
    ∀ {l : List Char} {c : Char}, l.getLast? = some c → p c = false →
      (l.dropWhile p).getLast? = some c
  | [], _, h, _ => by simp at h
  | [d], c, h, hp => by
    have h1 : some d = some c := h
    injection h1 with h2
    subst h2
    by_cases hd : p d = true
    · rw [hd] at hp
      exact absurd hp (by simp)
    · rw [List.dropWhile_cons_of_neg hd]
      rfl
  | d :: d2 :: l2, c, h, hp => by
    rw [List.getLast?_cons_cons] at h
    by_cases hd : p d = true
    · rw [List.dropWhile_cons_of_pos hd]
      exact dropWhile_getLast h hp
    · rw [List.dropWhile_cons_of_neg hd, List.getLast?_cons_cons]
      exact h

theorem jsTrimL_head {l : List Char} {c : Char} (hh : l.head? = some c)
    (hw : jsIsWs c = false) : (jsTrimL l).head? = some c := by
  cases l with
  | nil => simp at hh
  | cons d l2 =>
    injection hh with h2
    subst h2
    unfold jsTrimL
    rw [List.dropWhile_cons_of_neg (by simp [hw])]
    rw [List.head?_reverse]
    apply dropWhile_getLast _ hw
    rw [List.getLast?_reverse]
    rfl

theorem isDashLine_fieldLine {k : String} (v : FrontVal) (hk : wfKey k) :
    isDashLine (fieldLine (k, v)) = false := by
  obtain ⟨c0, k2, hk0, hws0, hdash0, hhash0, hcol0⟩ := key_shape hk
  have hh : (fieldLine (k, v)).head? = some c0 := by
    unfold fieldLine
    rw [hk0]
    rfl
  unfold isDashLine
  rw [jsTrimL_head hh hws0]
  simp [hdash0]

theorem keyTrim {k : String} (hk : wfKey k) : jsTrimL k.data = k.data := by
  obtain ⟨c0, k2, hk0, hws0, _, _, _⟩ := key_shape hk
  obtain ⟨cL, hcL⟩ : ∃ cL, k.data.getLast? = some cL := by
    rw [hk0]
    cases hgl : (c0 :: k2).getLast? with
    | some cL => exact ⟨cL, rfl⟩
    | none => simp at hgl
  exact trimEdge (by rw [hk0]; rfl) hws0 hcL (hk.2.1 cL (memGetLast hcL)).1

theorem stripOneQuoteEnds_quoteSingle (y : String) :
    stripOneQuoteEnds (quoteSingle y) = y.data := by
  simp only [stripOneQuoteEnds, quoteSingle]
  rw [if_pos (Or.inr trivial)]
  rw [getLastConcat]
  show (if ('\'' : Char) = '"' ∨ ('\'' : Char) = '\'' then (y.data ++ ['\'']).dropLast
    else y.data ++ ['\'']) = y.data
  rw [if_pos (Or.inr rfl)]
  exact dropLastConcat y.data '\''

theorem joinSep_cons_prefix (sep : List Char) (c : Char) (q : List Char) :
    ∀ (L : List (List Char)), joinSep sep ((c :: q) :: L) = c :: joinSep sep (q :: L)
  | [] => rfl
  | r :: rs => by
    rw [joinSep_cons sep (c :: q) (by simp), joinSep_cons sep q (by simp)]
    simp

theorem joinSep_comma_space : ∀ (p : List Char) (ps : List (List Char)),
    joinSep [',', ' '] (p :: ps) = joinSep [','] (p :: ps.map (fun q => ' ' :: q))
  | _, [] => rfl
  | p, q :: ps2 => by
    rw [joinSep_cons [',', ' '] p (by simp), joinSep_comma_space q ps2,
      List.map_cons, joinSep_cons [','] p (by simp),
      joinSep_cons_prefix [','] ' ' q (ps2.map (fun q2 => ' ' :: q2))]
    simp

theorem joinSep_getLast_all {sep : List Char} {c : Char} :
    ∀ {ls : List (List Char)}, ls ≠ [] → (∀ l ∈ ls, l.getLast? = some c) →
      (joinSep sep ls).getLast? = some c
  | [], h, _ => absurd rfl h
  | [x], _, hall => hall x (by simp)
  | x :: y :: rest, _, hall => by
    rw [joinSep_cons sep x (by simp)]
    have htail : (joinSep sep (y :: rest)).getLast? = some c :=
      joinSep_getLast_all (by simp) (fun l hl => hall l (List.mem_cons_of_mem x hl))
    have hne : joinSep sep (y :: rest) ≠ [] := by
      intro habs
      rw [habs] at htail
      simp at htail
    rw [List.append_assoc, getLastAppRight x (by
      intro habs
      exact hne (List.append_eq_nil.mp habs).2)]
    rw [getLastAppRight sep hne]
    exact htail

theorem quoteSingle_no_comma {y : String} (hc : ',' ∉ y.data) : ',' ∉ quoteSingle y := by
  unfold quoteSingle
  intro hm
  rcases List.mem_cons.mp hm with h | h
  · exact absurd h (by decide)
  · rcases List.mem_append.mp h with h2 | h2
    · exact hc h2
    · exact absurd (List.mem_singleton.mp h2) (by decide)

theorem quoteSingle_getLast (y : String) : (quoteSingle y).getLast? = some '\'' := by
  have h : quoteSingle y = ('\'' :: y.data) ++ ['\''] := by
    unfold quoteSingle
    rw [List.cons_append]
  rw [h, getLastConcat]

theorem jsTrimL_quoteSingle (y : String) : jsTrimL (quoteSingle y) = quoteSingle y :=
  trimEdge rfl (by decide) (quoteSingle_getLast y) (by decide)

theorem itemStrip (y : String) :
    String.mk (stripOneQuoteEnds (jsTrimL (quoteSingle y))) = y := by
  rw [jsTrimL_quoteSingle, stripOneQuoteEnds_quoteSingle]

theorem itemStripSpace (y : String) :
    String.mk (stripOneQuoteEnds (jsTrimL (' ' :: quoteSingle y))) = y := by
  rw [jsTrimL_cons_ws (by decide), jsTrimL_quoteSingle, stripOneQuoteEnds_quoteSingle]

theorem mapItems : ∀ (xs2 : List String),
    ((xs2.map quoteSingle).map (fun q => ' ' :: q)).map
      (fun it => String.mk (stripOneQuoteEnds (jsTrimL it))) = xs2
  | [] => rfl
  | y :: ys => by
    simp only [List.map_cons]
    rw [mapItems ys, itemStripSpace y]

theorem parseInlineItems_join (x : String) (xs2 : List String)
    (hc : ∀ y ∈ x :: xs2, ',' ∉ y.data) :
    parseInlineItems (joinSep [',', ' '] ((x :: xs2).map quoteSingle)) = x :: xs2 := by
  rw [List.map_cons, joinSep_comma_space]
  unfold parseInlineItems
  rw [splitOnChar_join (by simp) (by
    intro l hl
    rcases List.mem_cons.mp hl with h | h
    · rw [h]
      exact quoteSingle_no_comma (hc x (List.mem_cons_self _ _))
    · rcases List.mem_map.mp h with ⟨q, hq, hql⟩
      rcases List.mem_map.mp hq with ⟨y, hy, hyq⟩
      rw [← hql, ← hyq]
      intro hm
      rcases List.mem_cons.mp hm with h2 | h2
      · exact absurd h2 (by decide)
      · exact quoteSingle_no_comma (hc y (List.mem_cons_of_mem x hy)) h2)]
  rw [List.map_cons, itemStrip x, mapItems xs2]

theorem stepScalar {k : String} {v2 : String} (hk : wfKey k) (hsc : wfScalar v2)
    (hne : v2.data ≠ []) (fu : Nat) (rest : List (List Char))
    (hdash : ∀ l2 ∈ rest.head?, isDashLine l2 = false) :
    parseLinesF (fu + 1) (fieldLine (k, FrontVal.str v2) :: rest) =
      (k, FrontVal.str v2) :: parseLinesF fu rest := by
  obtain ⟨c0, k2, hk0, hws0, hdash0, hhash0, hcol0⟩ := key_shape hk
  have hknc : ':' ∉ k.data := fun hm => (hk.2.1 ':' hm).2 rfl
  have hktrim : jsTrimL k.data = k.data := keyTrim hk
  have hFlast : ∃ cL, (formatValue (FrontVal.str v2)).getLast? = some cL ∧ jsIsWs cL = false := by
    simp only [formatValue]
    by_cases hcol : ':' ∈ v2.data
    · rw [if_pos hcol]
      exact ⟨'\'', quoteSingle_getLast v2, by decide⟩
    · rw [if_neg hcol]
      obtain ⟨cL, hcL⟩ : ∃ cL, v2.data.getLast? = some cL := by
        cases hd : v2.data with
        | nil => exact absurd hd hne
        | cons d l2 =>
          cases hgl : (d :: l2).getLast? with
          | some cL => exact ⟨cL, rfl⟩
          | none => simp at hgl
      exact ⟨cL, hcL, trimFix_last hsc.2.1 hcL⟩
  have hh : (fieldLine (k, FrontVal.str v2)).head? = some c0 := by
    unfold fieldLine
    rw [hk0]
    rfl
  obtain ⟨cL, hcLgl, hcLws⟩ := hFlast
  have hFne : formatValue (FrontVal.str v2) ≠ [] := by
    intro habs
    rw [habs] at hcLgl
    simp at hcLgl
  have hlast : (fieldLine (k, FrontVal.str v2)).getLast? = some cL := by
    show (k.data ++ ':' :: ' ' :: formatValue (FrontVal.str v2)).getLast? = some cL
    rw [getLastAppRight k.data (by simp)]
    rw [show (':' :: ' ' :: formatValue (FrontVal.str v2)) =
      [':', ' '] ++ formatValue (FrontVal.str v2) from rfl]
    rw [getLastAppRight [':', ' '] hFne]
    exact hcLgl
  have ht : jsTrimL (fieldLine (k, FrontVal.str v2)) = fieldLine (k, FrontVal.str v2) :=
    trimEdge hh hws0 hlast hcLws
  have hc1not : ¬(((fieldLine (k, FrontVal.str v2)).isEmpty ||
      (fieldLine (k, FrontVal.str v2)).head? == some '#') = true) := by
    have he : (fieldLine (k, FrontVal.str v2)).isEmpty = false := by
      unfold fieldLine
      rw [hk0]
      rfl
    rw [hh, he]
    simp [hhash0]
  have hci : firstIdxOf ':' (fieldLine (k, FrontVal.str v2)) = some k.data.length :=
    firstIdxOf_append (' ' :: formatValue (FrontVal.str v2)) hknc
  have hdropT : (fieldLine (k, FrontVal.str v2)).drop (k.data.length + 1) =
      ' ' :: formatValue (FrontVal.str v2) :=
    (dropAppUnit k.data (':' :: ' ' :: formatValue (FrontVal.str v2)) 1).trans rfl
  have htake : (fieldLine (k, FrontVal.str v2)).take k.data.length = k.data :=
    takeLeftApp k.data (':' :: ' ' :: formatValue (FrontVal.str v2))
  have hV : unquoteIfWrapped (jsTrimL (' ' :: formatValue (FrontVal.str v2))) = v2.data := by
    rw [jsTrimL_cons_ws (by decide)]
    simp only [formatValue]
    by_cases hcol : ':' ∈ v2.data
    · rw [if_pos hcol, jsTrimL_quoteSingle]
      unfold unquoteIfWrapped
      have hqw : quoteWrappedL (quoteSingle v2) = true := by
        unfold quoteWrappedL
        rw [quoteSingle_getLast]
        rfl
      rw [if_pos hqw]
      show ((quoteSingle v2).drop 1).dropLast = v2.data
      rw [show (quoteSingle v2).drop 1 = v2.data ++ ['\''] from rfl]
      exact dropLastConcat v2.data '\''
    · rw [if_neg hcol, hsc.2.1]
      unfold unquoteIfWrapped
      rw [if_neg (by rw [hsc.2.2.1]; simp)]
  have hbrnot : ¬((v2.data.head? == some '[' && v2.data.getLast? == some ']') = true) := by
    intro habs
    simp only [Bool.and_eq_true, beq_iff_eq] at habs
    exact hsc.2.2.2 habs
  cases rest with
  | nil =>
    simp only [parseLinesF]
    rw [ht, if_neg hc1not]
    simp only [hci]
    rw [if_neg (show ¬(false = true) by simp)]
    rw [hdropT, hV, if_neg hbrnot, htake, hktrim]
  | cons l2 r2 =>
    simp only [parseLinesF]
    rw [ht, if_neg hc1not]
    simp only [hci]
    rw [if_neg (show ¬(isDashLine l2 = true) by simp [hdash l2 rfl])]
    rw [hdropT, hV, if_neg hbrnot, htake, hktrim]

theorem stepScalarEmpty {k : String} {v2 : String} (hk : wfKey k) (hv2nil : v2.data = [])
    (fu : Nat) (rest : List (List Char))
    (hdash : ∀ l2 ∈ rest.head?, isDashLine l2 = false) :
    parseLinesF (fu + 1) (fieldLine (k, FrontVal.str v2) :: rest) =
      (k, FrontVal.str v2) :: parseLinesF fu rest := by
  obtain ⟨c0, k2, hk0, hws0, hdash0, hhash0, hcol0⟩ := key_shape hk
  have hknc : ':' ∉ k.data := fun hm => (hk.2.1 ':' hm).2 rfl
  have hktrim : jsTrimL k.data = k.data := keyTrim hk
  have hfv : formatValue (FrontVal.str v2) = [] := by
    simp only [formatValue]
    rw [hv2nil, if_neg (List.not_mem_nil ':')]
  have hfl : fieldLine (k, FrontVal.str v2) = k.data ++ [':', ' '] := by
    unfold fieldLine
    rw [hfv]
  have ht : jsTrimL (fieldLine (k, FrontVal.str v2)) = k.data ++ [':'] := by
    rw [hfl, hk0]
    unfold jsTrimL
    rw [List.cons_append, List.dropWhile_cons_of_neg (by simp [hws0])]
    have hrev : (c0 :: (k2 ++ [':', ' '])).reverse = ' ' :: ':' :: (k2.reverse ++ [c0]) := by
      simp
    rw [hrev, List.dropWhile_cons_of_pos (by decide), List.dropWhile_cons_of_neg (by decide)]
    simp
  have hc1not : ¬(((k.data ++ [':']).isEmpty || (k.data ++ [':']).head? == some '#') = true) := by
    rw [hk0, List.cons_append]
    simp [hhash0]
  have hci : firstIdxOf ':' (k.data ++ [':']) = some k.data.length :=
    firstIdxOf_append [] hknc
  have hdropT : (k.data ++ [':']).drop (k.data.length + 1) = [] :=
    (dropAppUnit k.data [':'] 1).trans rfl
  have hV : unquoteIfWrapped (jsTrimL ([] : List Char)) = [] := rfl
  have hbrnot : ¬((([] : List Char).head? == some '[' &&
      ([] : List Char).getLast? == some ']') = true) := by decide
  have htake : (k.data ++ [':']).take k.data.length = k.data := takeLeftApp k.data [':']
  cases rest with
  | nil =>
    simp only [parseLinesF]
    rw [ht, if_neg hc1not]
    simp only [hci]
    rw [if_neg (show ¬(false = true) by simp)]
    rw [hdropT, hV, if_neg hbrnot, htake, hktrim, ← hv2nil]
  | cons l2 r2 =>
    simp only [parseLinesF]
    rw [ht, if_neg hc1not]
    simp only [hci]
    rw [if_neg (show ¬(isDashLine l2 = true) by simp [hdash l2 rfl])]
    rw [hdropT, hV, if_neg hbrnot, htake, hktrim, ← hv2nil]

theorem innerArr (xs : List String) (hc : ∀ y ∈ xs, ',' ∉ y.data) :
    (if (jsTrimL (joinSep [',', ' '] (xs.map quoteSingle))).isEmpty then ([] : List String)
      else parseInlineItems (jsTrimL (joinSep [',', ' '] (xs.map quoteSingle)))) = xs := by
  cases xs with
  | nil => rfl
  | cons x xs2 =>
    rw [List.map_cons]
    obtain ⟨z, hz⟩ :=
      joinSep_head (show (quoteSingle x).head? = some '\'' from rfl) (xs2.map quoteSingle)
    have hglall : ∀ l ∈ quoteSingle x :: xs2.map quoteSingle, l.getLast? = some '\'' := by
      intro l hl
      rcases List.mem_cons.mp hl with h | h
      · rw [h]
        exact quoteSingle_getLast x
      · rcases List.mem_map.mp h with ⟨y, hy, hyl⟩
        rw [← hyl]
        exact quoteSingle_getLast y
    have hJtrim : jsTrimL (joinSep [',', ' '] (quoteSingle x :: xs2.map quoteSingle)) =
        joinSep [',', ' '] (quoteSingle x :: xs2.map quoteSingle) :=
      trimEdge (by rw [hz]; rfl) (by decide)
        (joinSep_getLast_all (by simp) hglall) (by decide)
    rw [hJtrim]
    rw [if_neg (by rw [hz]; simp)]
    exact parseInlineItems_join x xs2 hc

theorem stepArr {k : String} {xs : List String} (hk : wfKey k)
    (hv : ∀ x ∈ xs, (∀ c ∈ x.data, c ≠ '\n') ∧ ',' ∉ x.data)
    (fu : Nat) (rest : List (List Char))
    (hdash : ∀ l2 ∈ rest.head?, isDashLine l2 = false) :
    parseLinesF (fu + 1) (fieldLine (k, FrontVal.arr xs) :: rest) =
      (k, FrontVal.arr xs) :: parseLinesF fu rest := by
  obtain ⟨c0, k2, hk0, hws0, hdash0, hhash0, hcol0⟩ := key_shape hk
  have hknc : ':' ∉ k.data := fun hm => (hk.2.1 ':' hm).2 rfl
  have hktrim : jsTrimL k.data = k.data := keyTrim hk
  have hFsnoc : formatValue (FrontVal.arr xs) =
      ('[' :: joinSep [',', ' '] (xs.map quoteSingle)) ++ [']'] := by
    simp only [formatValue]
    rw [List.cons_append]
  have hFhead : (formatValue (FrontVal.arr xs)).head? = some '[' := rfl
  have hh : (fieldLine (k, FrontVal.arr xs)).head? = some c0 := by
    unfold fieldLine
    rw [hk0]
    rfl
  have hlast : (fieldLine (k, FrontVal.arr xs)).getLast? = some ']' := by
    show (k.data ++ ':' :: ' ' :: formatValue (FrontVal.arr xs)).getLast? = some ']'
    rw [getLastAppRight k.data (by simp)]
    rw [show (':' :: ' ' :: formatValue (FrontVal.arr xs)) =
      [':', ' '] ++ formatValue (FrontVal.arr xs) from rfl]
    rw [getLastAppRight [':', ' '] (by rw [hFsnoc]; simp)]
    rw [hFsnoc, getLastConcat]
  have ht : jsTrimL (fieldLine (k, FrontVal.arr xs)) = fieldLine (k, FrontVal.arr xs) :=
    trimEdge hh hws0 hlast (by decide)
  have hc1not : ¬(((fieldLine (k, FrontVal.arr xs)).isEmpty ||
      (fieldLine (k, FrontVal.arr xs)).head? == some '#') = true) := by
    have he : (fieldLine (k, FrontVal.arr xs)).isEmpty = false := by
      unfold fieldLine
      rw [hk0]
      rfl
    rw [hh, he]
    simp [hhash0]
  have hci : firstIdxOf ':' (fieldLine (k, FrontVal.arr xs)) = some k.data.length :=
    firstIdxOf_append (' ' :: formatValue (FrontVal.arr xs)) hknc
  have hdropT : (fieldLine (k, FrontVal.arr xs)).drop (k.data.length + 1) =
      ' ' :: formatValue (FrontVal.arr xs) :=
    (dropAppUnit k.data (':' :: ' ' :: formatValue (FrontVal.arr xs)) 1).trans rfl
  have htake : (fieldLine (k, FrontVal.arr xs)).take k.data.length = k.data :=
    takeLeftApp k.data (':' :: ' ' :: formatValue (FrontVal.arr xs))
  have hqw : quoteWrappedL (formatValue (FrontVal.arr xs)) = false := by
    unfold quoteWrappedL
    rw [hFhead]
    rfl
  have hV : unquoteIfWrapped (jsTrimL (' ' :: formatValue (FrontVal.arr xs))) =
      formatValue (FrontVal.arr xs) := by
    rw [jsTrimL_cons_ws (by decide)]
    rw [trimEdge hFhead (by decide) (by rw [hFsnoc]; exact getLastConcat _ _) (by decide)]
    unfold unquoteIfWrapped
    rw [if_neg (by rw [hqw]; simp)]
  have hbr : ((formatValue (FrontVal.arr xs)).head? == some '[' &&
      (formatValue (FrontVal.arr xs)).getLast? == some ']') = true := by
    rw [hFhead, hFsnoc, getLastConcat]
    rfl
  have hinner : ((formatValue (FrontVal.arr xs)).drop 1).dropLast =
      joinSep [',', ' '] (xs.map quoteSingle) := by
    rw [show (formatValue (FrontVal.arr xs)).drop 1 =
      joinSep [',', ' '] (xs.map quoteSingle) ++ [']'] from rfl]
    exact dropLastConcat _ _
  have hcomma : ∀ y ∈ xs, ',' ∉ y.data := fun y hy => (hv y hy).2
  cases rest with
  | nil =>
    simp only [parseLinesF]
    rw [ht, if_neg hc1not]
    simp only [hci]
    rw [if_neg (show ¬(false = true) by simp)]
    rw [hdropT, hV, if_pos hbr, hinner, innerArr xs hcomma, htake, hktrim]
  | cons l2 r2 =>
    simp only [parseLinesF]
    rw [ht, if_neg hc1not]
    simp only [hci]
    rw [if_neg (show ¬(isDashLine l2 = true) by simp [hdash l2 rfl])]
    rw [hdropT, hV, if_pos hbr, hinner, innerArr xs hcomma, htake, hktrim]

theorem parseLinesF_step {k : String} {v : FrontVal} (hk : wfKey k) (hv : wfVal v)
    (fu : Nat) (rest : List (List Char))
    (hdash : ∀ l2 ∈ rest.head?, isDashLine l2 = false) :
    parseLinesF (fu + 1) (fieldLine (k, v) :: rest) = (k, v) :: parseLinesF fu rest := by
  cases v with
  | str v2 =>
    by_cases hnil : v2.data = []
    · exact stepScalarEmpty hk hnil fu rest hdash
    · exact stepScalar hk hv hnil fu rest hdash
  | arr xs => exact stepArr hk hv fu rest hdash

theorem parseLinesF_fields : ∀ (f : List (String × FrontVal)),
    (∀ kv ∈ f, wfKey kv.1 ∧ wfVal kv.2) →
    parseLinesF (f.map fieldLine).length (f.map fieldLine) = f
  | [], _ => rfl
  | (k, v) :: f2, hf => by
    rw [List.map_cons, List.length_cons]
    have hdash : ∀ l2 ∈ (f2.map fieldLine).head?, isDashLine l2 = false := by
      intro l2 hl2
      have hl2mem : l2 ∈ f2.map fieldLine := List.mem_of_mem_head? hl2
      rcases List.mem_map.mp hl2mem with ⟨kv2, hkv2, hkv2l⟩
      obtain ⟨k2', v2'⟩ := kv2
      rw [← hkv2l]
      exact isDashLine_fieldLine v2' (hf (k2', v2') (List.mem_cons_of_mem _ hkv2)).1
    have hwf := hf (k, v) (List.mem_cons_self _ _)
    rw [parseLinesF_step hwf.1 hwf.2 (f2.map fieldLine).length (f2.map fieldLine) hdash]
    rw [parseLinesF_fields f2 (fun kv hkv => hf kv (List.mem_cons_of_mem _ hkv))]

/-- C5 counterexample: the codec round-trip does not preserve scalars for every
restricted-shape mapping. The scalar value `[a]` is emitted unquoted by
`formatFrontmatter` and re-parsed as the inline array `[a]`, so a string scalar
comes back as an array (not merely requoted): the claimed shape preservation
fails. -/
theorem roundtrip_cex :
    parseFrontmatter (serializeNote [(("k"), FrontVal.str ("[a]"))] ("x")) =
      ([(("k"), FrontVal.arr [("a")])], ("x")) ∧
    FrontVal.str ("[a]") ≠ FrontVal.arr [("a")] := by
  constructor
  · rfl
  · decide

/-- C5 (amended): the round-trip `parseFrontmatter (serializeNote f b) = (f, b)`
holds exactly for well-formed inputs: a non-empty mapping with distinct keys
that are non-empty and free of whitespace and colons and do not start with `#`
or `-`; scalar values newline-free, trimmed, not quote-wrapped and not
bracket-wrapped; array items newline- and comma-free; and a body whose leading
whitespace run contains no newline. -/
theorem roundtrip_wf (f : List (String × FrontVal)) (b : String)
    (hf : wfFields f) (hb : wfBody b) :
    parseFrontmatter (serializeNote f b) = (f, b) := by
  unfold parseFrontmatter
  simp only [parseRaw_serialize hf.1 hf.2.1 hb]
  have hmapne : f.map fieldLine ≠ [] := by
    intro habs
    cases f with
    | nil => exact hf.1 rfl
    | cons kv f2 => simp at habs
  have hnl : ∀ l ∈ f.map fieldLine, '\n' ∉ l :=
    fun l hl hm => ((fieldLines_ok hf.2.1) l hl).2.1 '\n' hm rfl
  rw [splitOnChar_join hmapne hnl]
  unfold parseLines
  rw [parseLinesF_fields f hf.2.1]

/-- C5 witness: a concrete well-formed mapping and body round-trip exactly. -/
theorem roundtrip_wf_witness :
    parseFrontmatter (serializeNote
      [(("title"), FrontVal.str ("hello world")), (("tags"), FrontVal.arr [("a"), ("b")])]
      ("body text\nmore")) =
    ([(("title"), FrontVal.str ("hello world")), (("tags"), FrontVal.arr [("a"), ("b")])],
      ("body text\nmore")) :=
  roundtrip_wf
    [(("title"), FrontVal.str ("hello world")), (("tags"), FrontVal.arr [("a"), ("b")])]
    ("body text\nmore")
    (by
      refine ⟨by decide, ?_, by decide⟩
      intro kv hkv
      fin_cases hkv
      · exact ⟨by unfold wfKey; decide, by unfold wfVal wfScalar; decide⟩
      · exact ⟨by unfold wfKey; decide, by unfold wfVal; decide⟩)
    (by unfold wfBody; decide)
